import Mathlib

/-!
Verification of the content-extraction core of the `web-scrapping` repository
(`backend/scraper/extractor.py`), shallowly embedded in Lean 4.

Text is modelled as `List Char`; Python strings at the API boundary are
Lean `String`s.  Machine floats of the source are modelled as `ℚ`.
-/

namespace Scrape

/-- Python whitespace (`str.isspace` / regex `\s` for `str` patterns):
ASCII whitespace and control separators plus the Unicode space code points. -/
def isPySpace (c : Char) : Bool :=
  c.toNat ∈ [9, 10, 11, 12, 13, 28, 29, 30, 31, 32, 133, 160, 5760,
    8192, 8193, 8194, 8195, 8196, 8197, 8198, 8199, 8200, 8201, 8202,
    8232, 8233, 8239, 8287, 12288]

/-- Number of newline characters in the maximal whitespace run at the head
of `cs` (the `\s*`-reachable region of the regex). -/
def runCount (cs : List Char) : Nat :=
  (cs.takeWhile isPySpace).count '\n'

/-- The suffix of `w` that follows its last `'\n'` (all of `w` if none). -/
def afterLastNl (w : List Char) : List Char :=
  (w.reverse.takeWhile (fun c => c != '\n')).reverse

/-- Drop, from `cs`, everything up to and including the last `'\n'` of the
maximal whitespace run at the head of `cs`; keep the run's trailing
non-newline whitespace.  This is where `re.sub` resumes scanning after a
match of `\n\s*\n\s*\n+` starting one character earlier. -/
def dropRun (cs : List Char) : List Char :=
  afterLastNl (cs.takeWhile isPySpace) ++ cs.dropWhile isPySpace

theorem length_takeWhile_lt_of_mem_not {p : Char → Bool} {l : List Char}
    {x : Char} (hx : x ∈ l) (hpx : p x = false) :
    (l.takeWhile p).length < l.length := by
  induction l with
  | nil => cases hx
  | cons a as ih =>
    by_cases ha : p a = true
    · simp only [List.takeWhile_cons, ha, if_true, List.length_cons]
      have hxas : x ∈ as := by
        rcases List.mem_cons.1 hx with rfl | h
        · rw [ha] at hpx; cases hpx
        · exact h
      exact Nat.succ_lt_succ (ih hxas)
    · simp only [List.takeWhile_cons, eq_false_of_ne_true ha, if_false,
        List.length_nil, List.length_cons]
      exact Nat.succ_pos _

theorem afterLastNl_length_lt {w : List Char} (h : '\n' ∈ w) :
    (afterLastNl w).length < w.length := by
  unfold afterLastNl
  rw [List.length_reverse]
  have h' : '\n' ∈ w.reverse := List.mem_reverse.2 h
  have := length_takeWhile_lt_of_mem_not (p := fun c => c != '\n') h'
    (by simp)
  simpa using this

theorem dropRun_length_lt {cs : List Char} (h : 2 ≤ runCount cs) :
    (dropRun cs).length + 1 < cs.length + 1 := by
  have hmem : '\n' ∈ cs.takeWhile isPySpace := by
    by_contra hn
    have : (cs.takeWhile isPySpace).count '\n' = 0 := List.count_eq_zero.2 hn
    rw [runCount] at h; omega
  have h1 : (afterLastNl (cs.takeWhile isPySpace)).length
      < (cs.takeWhile isPySpace).length := afterLastNl_length_lt hmem
  have h2 : (cs.takeWhile isPySpace).length + (cs.dropWhile isPySpace).length
      = cs.length := by
    rw [← List.length_append, List.takeWhile_append_dropWhile]
  have h3 : (dropRun cs).length
      = (afterLastNl (cs.takeWhile isPySpace)).length
        + (cs.dropWhile isPySpace).length := by
    rw [dropRun, List.length_append]
  omega

/-- Model of `re.sub(r'\n\s*\n\s*\n+', '\n\n', text)`: at each `'\n'` whose
whitespace run contains at least three newlines in total, the engine's
greedy leftmost match spans up to the last newline of the run and is
replaced by two newlines. -/
def collapseNl : List Char → List Char
  | [] => []
  | c :: cs =>
    if h : c = '\n' ∧ 2 ≤ runCount cs then
      '\n' :: '\n' :: collapseNl (dropRun cs)
    else
      c :: collapseNl cs
termination_by l => l.length
decreasing_by
  · have := dropRun_length_lt h.2
    simp only [List.length_cons]; omega
  · simp

/-- Model of `re.sub(r' +', ' ', text)`: each maximal run of spaces is
replaced by a single space. -/
def collapseSpaces : List Char → List Char
  | [] => []
  | c :: cs =>
    if c = ' ' then ' ' :: collapseSpaces (cs.dropWhile (fun d => d == ' '))
    else c :: collapseSpaces cs
termination_by l => l.length
decreasing_by
  · have := (List.dropWhile_sublist (l := cs) (fun d => d == ' ')).length_le
    simp only [List.length_cons]; omega
  · simp

/-- Model of Python `str.split('\n')`. -/
def splitNl : List Char → List (List Char)
  | [] => [[]]
  | c :: cs =>
    if c = '\n' then [] :: splitNl cs
    else
      match splitNl cs with
      | [] => [[c]]
      | l :: ls => (c :: l) :: ls

/-- Model of `'\n'.join(...)`. -/
def joinNl : List (List Char) → List Char
  | [] => []
  | [l] => l
  | l :: ls => l ++ '\n' :: joinNl ls

/-- Left part of Python `str.strip()`. -/
def pyStripL (l : List Char) : List Char := l.dropWhile isPySpace

/-- Right part of Python `str.strip()`. -/
def pyStripR (l : List Char) : List Char :=
  (l.reverse.dropWhile isPySpace).reverse

/-- Model of Python `str.strip()`. -/
def pyStrip (l : List Char) : List Char := pyStripR (pyStripL l)

/-- `[line.strip() for line in text.split('\n')]` joined back with `'\n'`. -/
def stripLines (l : List Char) : List Char :=
  joinNl ((splitNl l).map pyStrip)

/-- The `_clean_text` method of `ContentExtractor`, at the character level:
collapse runs of three or more newlines (with interleaved whitespace) to two,
collapse runs of spaces to one, strip every line, strip the result. -/
def cleanText (l : List Char) : List Char :=
  pyStrip (stripLines (collapseSpaces (collapseNl l)))

/-- `_clean_text` on Python strings. -/
def cleanTextS (s : String) : String := ⟨cleanText s.data⟩

/-! ### Predicates used in the idempotence proof for `_clean_text` -/

/-- Every character is Python whitespace. -/
def allWs (l : List Char) : Prop := ∀ c ∈ l, isPySpace c = true

/-- No newline character occurs. -/
def nlFree (l : List Char) : Prop := '\n' ∉ l

/-- The head, if any, is not whitespace. -/
def headNW (l : List Char) : Prop :=
  ∀ c, l.head? = some c → isPySpace c = false

/-- The list carries no leading and no trailing whitespace. -/
def Stripped (l : List Char) : Prop :=
  headNW l ∧ ∀ c, l.getLast? = some c → isPySpace c = false

theorem headNW_nil : headNW [] := by
  intro c h; cases h

theorem dropWhile_eq_self_of_headNW {p : Char → Bool} {l : List Char}
    (h : ∀ c, l.head? = some c → p c = false) : l.dropWhile p = l := by
  cases l with
  | nil => rfl
  | cons a as =>
    have := h a rfl
    simp [List.dropWhile_cons, this]

theorem headNW_pyStripL (l : List Char) : headNW (pyStripL l) := by
  intro c h
  have := List.head?_dropWhile_not isPySpace l
  rw [pyStripL] at h
  rw [h] at this
  exact this

theorem pyStripL_eq_self (l : List Char) (h : headNW l) : pyStripL l = l :=
  dropWhile_eq_self_of_headNW h

theorem exists_pyStripL_decomp (l : List Char) :
    ∃ e, l = e ++ pyStripL l ∧ allWs e := by
  refine ⟨l.takeWhile isPySpace, ?_, ?_⟩
  · rw [pyStripL, List.takeWhile_append_dropWhile]
  · intro c hc
    exact List.mem_takeWhile_imp hc

theorem pyStripR_reverse_eq (l : List Char) :
    (pyStripR l).reverse = l.reverse.dropWhile isPySpace := by
  rw [pyStripR, List.reverse_reverse]

theorem exists_pyStripR_decomp (l : List Char) :
    ∃ e, l = pyStripR l ++ e ∧ allWs e := by
  refine ⟨(l.reverse.takeWhile isPySpace).reverse, ?_, ?_⟩
  · have h := List.takeWhile_append_dropWhile isPySpace l.reverse
    have h2 := congrArg List.reverse h
    rw [List.reverse_append] at h2
    rw [pyStripR]
    rw [List.reverse_reverse l] at h2
    exact h2.symm
  · intro c hc
    rw [List.mem_reverse] at hc
    exact List.mem_takeWhile_imp hc

theorem getLast?_pyStripR (l : List Char) :
    ∀ c, (pyStripR l).getLast? = some c → isPySpace c = false := by
  intro c h
  have hrev : (pyStripR l).reverse.head? = some c := by
    rw [List.head?_reverse]; exact h
  rw [pyStripR_reverse_eq] at hrev
  have := List.head?_dropWhile_not isPySpace l.reverse
  rw [hrev] at this
  exact this

theorem pyStripR_eq_self (l : List Char)
    (h : ∀ c, l.getLast? = some c → isPySpace c = false) : pyStripR l = l := by
  rw [pyStripR]
  have : l.reverse.dropWhile isPySpace = l.reverse := by
    apply dropWhile_eq_self_of_headNW
    intro c hc
    rw [List.head?_reverse] at hc
    exact h c hc
  rw [this, List.reverse_reverse]

theorem headNW_pyStripR {l : List Char} (h : headNW l) : headNW (pyStripR l) := by
  obtain ⟨e, he, -⟩ := exists_pyStripR_decomp l
  intro c hc
  apply h c
  rw [he]
  cases hps : pyStripR l with
  | nil => rw [hps] at hc; cases hc
  | cons a as =>
    rw [hps] at hc
    simpa using hc

theorem stripped_pyStrip (l : List Char) : Stripped (pyStrip l) := by
  constructor
  · exact headNW_pyStripR (headNW_pyStripL l)
  · exact getLast?_pyStripR (pyStripL l)

theorem pyStrip_eq_self {l : List Char} (h : Stripped l) : pyStrip l = l := by
  rw [pyStrip, pyStripL_eq_self l h.1, pyStripR_eq_self l h.2]

theorem pyStrip_idem (l : List Char) : pyStrip (pyStrip l) = pyStrip l :=
  pyStrip_eq_self (stripped_pyStrip l)

theorem exists_pyStrip_decomp (l : List Char) :
    ∃ e₁ e₂, l = e₁ ++ pyStrip l ++ e₂ ∧ allWs e₁ ∧ allWs e₂ := by
  obtain ⟨e₁, he₁, hw₁⟩ := exists_pyStripL_decomp l
  obtain ⟨e₂, he₂, hw₂⟩ := exists_pyStripR_decomp (pyStripL l)
  exact ⟨e₁, e₂, by rw [pyStrip, List.append_assoc, ← he₂, ← he₁], hw₁, hw₂⟩

theorem mem_pyStrip {l : List Char} {c : Char} (h : c ∈ pyStrip l) : c ∈ l := by
  obtain ⟨e₁, e₂, he, -, -⟩ := exists_pyStrip_decomp l
  rw [he]; simp [h]

theorem nlFree_pyStrip {l : List Char} (h : nlFree l) : nlFree (pyStrip l) :=
  fun hc => h (mem_pyStrip hc)

theorem allWs_pyStrip_rev {l : List Char} (h : allWs (pyStrip l)) : allWs l := by
  obtain ⟨e₁, e₂, he, hw₁, hw₂⟩ := exists_pyStrip_decomp l
  intro c hc
  rw [he] at hc
  simp only [List.mem_append] at hc
  rcases hc with (hc | hc) | hc
  · exact hw₁ c hc
  · exact h c hc
  · exact hw₂ c hc

/-! ### Round-trip lemmas for `splitNl` / `joinNl` -/

theorem joinNl_cons_cons (l y : List Char) (ys : List (List Char)) :
    joinNl (l :: y :: ys) = l ++ '\n' :: joinNl (y :: ys) := rfl

theorem splitNl_ne_nil (l : List Char) : splitNl l ≠ [] := by
  induction l with
  | nil => simp [splitNl]
  | cons c cs ih =>
    by_cases h : c = '\n'
    · simp [splitNl, h]
    · simp only [splitNl, h, if_false]
      cases hs : splitNl cs <;> simp

theorem joinNl_splitNl (l : List Char) : joinNl (splitNl l) = l := by
  induction l with
  | nil => rfl
  | cons c cs ih =>
    by_cases h : c = '\n'
    · subst h
      simp only [splitNl, if_true]
      cases hs : splitNl cs with
      | nil => exact absurd hs (splitNl_ne_nil cs)
      | cons a as =>
        rw [hs] at ih
        rw [joinNl_cons_cons, List.nil_append, ih]
    · simp only [splitNl, h, if_false]
      cases hs : splitNl cs with
      | nil => exact absurd hs (splitNl_ne_nil cs)
      | cons a as =>
        rw [hs] at ih
        cases as with
        | nil =>
          simp only [joinNl] at ih ⊢
          rw [ih]
        | cons b bs =>
          rw [joinNl_cons_cons] at ih ⊢
          rw [List.cons_append, ih]

theorem nlFree_of_mem_splitNl {l : List Char} {x : List Char}
    (hx : x ∈ splitNl l) : nlFree x := by
  induction l generalizing x with
  | nil =>
    simp only [splitNl, List.mem_singleton] at hx
    subst hx; intro h; cases h
  | cons c cs ih =>
    by_cases h : c = '\n'
    · simp only [splitNl, h, if_true, List.mem_cons] at hx
      rcases hx with rfl | hx
      · intro h'; cases h'
      · exact ih hx
    · simp only [splitNl, h, if_false] at hx
      cases hs : splitNl cs with
      | nil => exact absurd hs (splitNl_ne_nil cs)
      | cons a as =>
        rw [hs] at hx
        rcases List.mem_cons.1 hx with rfl | hx'
        · have ha : nlFree a := ih (hs ▸ List.mem_cons_self a as)
          intro hmem
          rcases List.mem_cons.1 hmem with rfl | hmem'
          · exact h rfl
          · exact ha hmem'
        · exact ih (hs ▸ List.mem_cons_of_mem a hx')

theorem splitNl_nlFree {x : List Char} (hx : nlFree x) : splitNl x = [x] := by
  induction x with
  | nil => rfl
  | cons c cs ih =>
    have hc : ¬ c = '\n' := fun h => hx (h ▸ List.mem_cons_self c cs)
    have hcs : nlFree cs := fun h => hx (List.mem_cons_of_mem c h)
    simp only [splitNl, hc, if_false, ih hcs]

theorem splitNl_append_nl {x r : List Char} (hx : nlFree x) :
    splitNl (x ++ '\n' :: r) = x :: splitNl r := by
  induction x with
  | nil => simp [splitNl]
  | cons c cs ih =>
    have hc : ¬ c = '\n' := fun h => hx (h ▸ List.mem_cons_self c cs)
    have hcs : nlFree cs := fun h => hx (List.mem_cons_of_mem c h)
    simp only [List.cons_append, splitNl, hc, if_false, List.append_eq]
    rw [ih hcs]

theorem splitNl_joinNl {ls : List (List Char)} (hne : ls ≠ [])
    (hnl : ∀ x ∈ ls, nlFree x) : splitNl (joinNl ls) = ls := by
  induction ls with
  | nil => exact absurd rfl hne
  | cons x ys ih =>
    cases ys with
    | nil =>
      simp only [joinNl]
      exact splitNl_nlFree (hnl x (List.mem_cons_self x []))
    | cons y ys' =>
      rw [joinNl_cons_cons,
        splitNl_append_nl (hnl x (List.mem_cons_self x (y :: ys')))]
      rw [ih (by simp) (fun z hz => hnl z (List.mem_cons_of_mem x hz))]

/-! ### No triple-newline runs: `collapseNl` facts -/

/-- No position of the list starts a match of `\n\s*\n\s*\n+`: every newline
is followed by a whitespace run holding at most one further newline. -/
def noTri : List Char → Prop
  | [] => True
  | c :: cs => (c = '\n' → runCount cs ≤ 1) ∧ noTri cs

theorem noTri_nil : noTri [] := trivial

theorem noTri_cons {c : Char} {cs : List Char} :
    noTri (c :: cs) ↔ (c = '\n' → runCount cs ≤ 1) ∧ noTri cs := Iff.rfl

theorem collapseNl_nil : collapseNl [] = [] := by rw [collapseNl]

theorem collapseNl_cons_pos {c : Char} {cs : List Char}
    (h : c = '\n' ∧ 2 ≤ runCount cs) :
    collapseNl (c :: cs) = '\n' :: '\n' :: collapseNl (dropRun cs) := by
  rw [collapseNl, dif_pos h]

theorem collapseNl_cons_neg {c : Char} {cs : List Char}
    (h : ¬ (c = '\n' ∧ 2 ≤ runCount cs)) :
    collapseNl (c :: cs) = c :: collapseNl cs := by
  rw [collapseNl, dif_neg h]

theorem isPySpace_nl : isPySpace '\n' = true := by decide

theorem runCount_cons_nl (cs : List Char) :
    runCount ('\n' :: cs) = runCount cs + 1 := by
  rw [runCount, runCount, List.takeWhile_cons_of_pos isPySpace_nl]
  simp [List.count_cons]

theorem runCount_cons_ws {c : Char} (cs : List Char) (h : isPySpace c = true)
    (hnl : c ≠ '\n') : runCount (c :: cs) = runCount cs := by
  rw [runCount, runCount, List.takeWhile_cons_of_pos h]
  simp [List.count_cons, hnl]

theorem runCount_cons_not_ws {c : Char} (cs : List Char)
    (h : isPySpace c = false) : runCount (c :: cs) = 0 := by
  rw [runCount, List.takeWhile_cons_of_neg (by simp [h])]
  rfl

theorem runCount_append_allWs {w : List Char} (u : List Char) (hw : allWs w) :
    runCount (w ++ u) = w.count '\n' + runCount u := by
  rw [runCount, List.takeWhile_append_of_pos hw, List.count_append, runCount]

theorem runCount_eq_zero_of_headNW {t : List Char} (h : headNW t) :
    runCount t = 0 := by
  cases t with
  | nil => rfl
  | cons c cs => exact runCount_cons_not_ws cs (h c rfl)

theorem runCount_le_append (s e : List Char) :
    runCount s ≤ runCount (s ++ e) := by
  induction s with
  | nil => simp [runCount]
  | cons c cs ih =>
    by_cases hws : isPySpace c = true
    · by_cases hnl : c = '\n'
      · subst hnl
        rw [runCount_cons_nl, List.cons_append, runCount_cons_nl]
        omega
      · rw [runCount_cons_ws cs hws hnl, List.cons_append,
          runCount_cons_ws (cs ++ e) hws hnl]
        exact ih
    · rw [runCount_cons_not_ws cs (by simpa using hws)]
      exact Nat.zero_le _

theorem noTri_tail {c : Char} {cs : List Char} (h : noTri (c :: cs)) :
    noTri cs := h.2

theorem noTri_append_right {a b : List Char} (h : noTri (a ++ b)) : noTri b := by
  induction a with
  | nil => exact h
  | cons c cs ih => exact ih (noTri_tail h)

theorem noTri_append_left {m e : List Char} (h : noTri (m ++ e)) : noTri m := by
  induction m with
  | nil => exact noTri_nil
  | cons c cs ih =>
    refine ⟨fun hc => ?_, ih (noTri_tail h)⟩
    have h1 := (noTri_cons.1 h).1 hc
    have h2 := runCount_le_append cs e
    simp only [List.append_eq] at h1
    omega

theorem noTri_dropWhile {l : List Char} (p : Char → Bool) (h : noTri l) :
    noTri (l.dropWhile p) := by
  induction l with
  | nil => exact noTri_nil
  | cons c cs ih =>
    rw [List.dropWhile_cons]
    split
    · exact ih (noTri_tail h)
    · exact h

theorem noTri_nlFree_append {a r : List Char} (ha : nlFree a) (hr : noTri r) :
    noTri (a ++ r) := by
  induction a with
  | nil => exact hr
  | cons c cs ih =>
    refine ⟨fun hc => absurd (hc ▸ List.mem_cons_self c cs) ha, ?_⟩
    exact ih (fun hm => ha (List.mem_cons_of_mem c hm))

theorem noTri_fix {l : List Char} (h : noTri l) : collapseNl l = l := by
  induction l with
  | nil => exact collapseNl_nil
  | cons c cs ih =>
    have hneg : ¬ (c = '\n' ∧ 2 ≤ runCount cs) := by
      rintro ⟨rfl, h2⟩
      have := (noTri_cons.1 h).1 rfl
      omega
    rw [collapseNl_cons_neg hneg, ih (noTri_tail h)]

theorem headNW_dropWhile_ws (z : List Char) : headNW (z.dropWhile isPySpace) := by
  intro c h
  have := List.head?_dropWhile_not isPySpace z
  rw [h] at this
  exact this

theorem headNW_collapseNl {t : List Char} (h : headNW t) :
    headNW (collapseNl t) := by
  cases t with
  | nil => rw [collapseNl_nil]; exact h
  | cons c cs =>
    have hws : isPySpace c = false := h c rfl
    have hnl : ¬ c = '\n' := fun he => by
      rw [he, isPySpace_nl] at hws; cases hws
    rw [collapseNl_cons_neg (fun hp => hnl hp.1)]
    intro d hd
    rw [List.head?_cons, Option.some.injEq] at hd
    exact hd ▸ hws

theorem collapseNl_split {z : List Char} (h : runCount z ≤ 1) :
    collapseNl z = z.takeWhile isPySpace ++ collapseNl (z.dropWhile isPySpace) := by
  induction z with
  | nil => simp [collapseNl_nil]
  | cons c cs ih =>
    by_cases hws : isPySpace c = true
    · have hrc : runCount cs ≤ 1 := by
        by_cases hnl : c = '\n'
        · subst hnl; rw [runCount_cons_nl] at h; omega
        · rw [runCount_cons_ws cs hws hnl] at h; exact h
      have hneg : ¬ (c = '\n' ∧ 2 ≤ runCount cs) := by
        rintro ⟨rfl, h2⟩
        rw [runCount_cons_nl] at h; omega
      rw [collapseNl_cons_neg hneg, List.takeWhile_cons_of_pos hws,
        List.dropWhile_cons_of_pos hws, ih hrc, List.cons_append]
    · rw [List.takeWhile_cons_of_neg (by simpa using hws),
        List.dropWhile_cons_of_neg (by simpa using hws), List.nil_append]

theorem runCount_collapseNl {z : List Char} (h : runCount z ≤ 1) :
    runCount (collapseNl z) = runCount z := by
  rw [collapseNl_split h]
  have hw : allWs (z.takeWhile isPySpace) := fun c hc => List.mem_takeWhile_imp hc
  rw [runCount_append_allWs _ hw,
    runCount_eq_zero_of_headNW (headNW_collapseNl (headNW_dropWhile_ws z))]
  rw [runCount]
  omega

theorem allWs_afterLastNl_takeWhile (cs : List Char) :
    allWs (afterLastNl (cs.takeWhile isPySpace)) := by
  intro c hc
  rw [afterLastNl, List.mem_reverse] at hc
  have hmem : c ∈ (cs.takeWhile isPySpace).reverse :=
    (List.takeWhile_sublist _).subset hc
  rw [List.mem_reverse] at hmem
  exact List.mem_takeWhile_imp hmem

theorem nlFree_afterLastNl (w : List Char) : nlFree (afterLastNl w) := by
  intro hc
  rw [afterLastNl, List.mem_reverse] at hc
  have := List.mem_takeWhile_imp hc
  simp at this

theorem runCount_dropRun (cs : List Char) : runCount (dropRun cs) = 0 := by
  rw [dropRun, runCount_append_allWs _ (allWs_afterLastNl_takeWhile cs),
    runCount_eq_zero_of_headNW (headNW_dropWhile_ws cs)]
  have : (afterLastNl (cs.takeWhile isPySpace)).count '\n' = 0 :=
    List.count_eq_zero.2 (nlFree_afterLastNl _)
  omega

/-- After `collapseNl`, no whitespace run contains three or more newlines. -/
theorem noTri_collapseNl (l : List Char) : noTri (collapseNl l) := by
  induction l using collapseNl.induct with
  | case1 => rw [collapseNl_nil]; exact noTri_nil
  | case2 c cs h ih =>
    rw [collapseNl_cons_pos h]
    have h0 : runCount (dropRun cs) = 0 := runCount_dropRun cs
    have h1 : runCount (collapseNl (dropRun cs)) = 0 := by
      rw [runCount_collapseNl (by omega), h0]
    refine ⟨fun _ => ?_, fun _ => ?_, ih⟩
    · rw [runCount_cons_nl, h1]
    · rw [h1]; omega
  | case3 c cs h ih =>
    rw [collapseNl_cons_neg h]
    refine ⟨fun hc => ?_, ih⟩
    subst hc
    have hrc : runCount cs ≤ 1 := by
      by_contra hgt
      exact h ⟨rfl, by omega⟩
    rw [runCount_collapseNl hrc]
    exact hrc

/-! ### No double spaces: `collapseSpaces` facts -/

/-- No two adjacent space characters. -/
def noDbl : List Char → Prop
  | c :: d :: cs => ¬ (c = ' ' ∧ d = ' ') ∧ noDbl (d :: cs)
  | _ => True

theorem noDbl_nil : noDbl [] := trivial

theorem noDbl_cons {c : Char} {l : List Char} :
    noDbl (c :: l) ↔
      (∀ d, l.head? = some d → ¬ (c = ' ' ∧ d = ' ')) ∧ noDbl l := by
  cases l with
  | nil =>
    simp only [noDbl, List.head?_nil]
    constructor
    · intro _
      refine ⟨fun d h => ?_, trivial⟩
      cases h
    · intro h'; trivial
  | cons d ds =>
    simp only [noDbl, List.head?_cons]
    constructor
    · rintro ⟨h1, h2⟩
      exact ⟨fun e he => by rw [Option.some.injEq] at he; exact he ▸ h1, h2⟩
    · rintro ⟨h1, h2⟩
      exact ⟨h1 d rfl, h2⟩

theorem noDbl_tail {c : Char} {l : List Char} (h : noDbl (c :: l)) : noDbl l :=
  (noDbl_cons.1 h).2

theorem noDbl_append_right {a b : List Char} (h : noDbl (a ++ b)) : noDbl b := by
  induction a with
  | nil => exact h
  | cons c cs ih => exact ih (noDbl_tail h)

theorem noDbl_append_left {a e : List Char} (h : noDbl (a ++ e)) : noDbl a := by
  induction a with
  | nil => exact noDbl_nil
  | cons c cs ih =>
    rw [List.cons_append] at h
    rw [noDbl_cons]
    refine ⟨fun d hd hp => ?_, ih (noDbl_tail h)⟩
    have hd' : (cs ++ e).head? = some d := by
      cases cs with
      | nil => cases hd
      | cons x xs => simpa using hd
    exact (noDbl_cons.1 h).1 d hd' hp

theorem noDbl_dropWhile {l : List Char} (p : Char → Bool) (h : noDbl l) :
    noDbl (l.dropWhile p) := by
  have := List.takeWhile_append_dropWhile p l
  exact noDbl_append_right (a := l.takeWhile p) (this.symm ▸ h)

theorem collapseSpaces_nil : collapseSpaces [] = [] := by rw [collapseSpaces]

theorem collapseSpaces_cons_pos {c : Char} {cs : List Char} (h : c = ' ') :
    collapseSpaces (c :: cs)
      = ' ' :: collapseSpaces (cs.dropWhile (fun d => d == ' ')) := by
  rw [collapseSpaces, if_pos h]

theorem collapseSpaces_cons_neg {c : Char} {cs : List Char} (h : ¬ c = ' ') :
    collapseSpaces (c :: cs) = c :: collapseSpaces cs := by
  rw [collapseSpaces, if_neg h]

theorem head?_collapseSpaces (u : List Char) :
    (collapseSpaces u).head? = u.head? := by
  cases u with
  | nil => rw [collapseSpaces_nil]
  | cons c cs =>
    by_cases h : c = ' '
    · subst h; rw [collapseSpaces_cons_pos rfl]; rfl
    · rw [collapseSpaces_cons_neg h]; rfl

/-- After `collapseSpaces`, no two spaces are adjacent. -/
theorem noDbl_collapseSpaces (l : List Char) : noDbl (collapseSpaces l) := by
  induction l using collapseSpaces.induct with
  | case1 => rw [collapseSpaces_nil]; exact noDbl_nil
  | case2 cs ih =>
    rw [collapseSpaces_cons_pos rfl, noDbl_cons]
    refine ⟨fun d hd hp => ?_, ih⟩
    rw [head?_collapseSpaces] at hd
    have hnot := List.head?_dropWhile_not (fun d => d == ' ') cs
    rw [hd] at hnot
    have hne : ¬ d = ' ' := by simpa using hnot
    exact hne hp.2
  | case3 c cs h ih =>
    rw [collapseSpaces_cons_neg h, noDbl_cons]
    exact ⟨fun d _ hp => h hp.1, ih⟩

theorem noDbl_fix {l : List Char} (h : noDbl l) : collapseSpaces l = l := by
  induction l with
  | nil => exact collapseSpaces_nil
  | cons c cs ih =>
    by_cases hc : c = ' '
    · subst hc
      rw [collapseSpaces_cons_pos rfl]
      have hdw : cs.dropWhile (fun d => d == ' ') = cs := by
        apply dropWhile_eq_self_of_headNW
        intro d hd
        have hnp := (noDbl_cons.1 h).1 d hd
        by_contra hd'
        have : d = ' ' := by simpa using hd'
        exact hnp ⟨rfl, this⟩
      rw [hdw, ih (noDbl_tail h)]
    · rw [collapseSpaces_cons_neg hc, ih (noDbl_tail h)]

theorem runCount_dropWhile_spaces (z : List Char) :
    runCount (z.dropWhile (fun d => d == ' ')) = runCount z := by
  induction z with
  | nil => rfl
  | cons c cs ih =>
    by_cases h : c = ' '
    · subst h
      rw [List.dropWhile_cons_of_pos (by simp), ih,
        runCount_cons_ws cs (by decide) (by decide)]
    · rw [List.dropWhile_cons_of_neg (by simpa using h)]

theorem runCount_collapseSpaces_le (z : List Char) :
    runCount (collapseSpaces z) ≤ runCount z := by
  induction z using collapseSpaces.induct with
  | case1 => rw [collapseSpaces_nil]
  | case2 cs ih =>
    rw [collapseSpaces_cons_pos rfl,
      runCount_cons_ws _ (by decide) (by decide),
      runCount_cons_ws cs (by decide) (by decide)]
    calc runCount (collapseSpaces (cs.dropWhile (fun d => d == ' ')))
        ≤ runCount (cs.dropWhile (fun d => d == ' ')) := ih
      _ = runCount cs := runCount_dropWhile_spaces cs
  | case3 c cs h ih =>
    rw [collapseSpaces_cons_neg h]
    by_cases hws : isPySpace c = true
    · by_cases hnl : c = '\n'
      · subst hnl
        rw [runCount_cons_nl, runCount_cons_nl]; omega
      · rw [runCount_cons_ws _ hws hnl, runCount_cons_ws cs hws hnl]; exact ih
    · rw [runCount_cons_not_ws _ (by simpa using hws)]
      exact Nat.zero_le _

/-- `collapseSpaces` preserves absence of triple-newline runs. -/
theorem noTri_collapseSpaces {z : List Char} (h : noTri z) :
    noTri (collapseSpaces z) := by
  induction z using collapseSpaces.induct with
  | case1 => rw [collapseSpaces_nil]; exact noTri_nil
  | case2 cs ih =>
    rw [collapseSpaces_cons_pos rfl, noTri_cons]
    refine ⟨fun he => ?_, ih (noTri_dropWhile _ (noTri_tail h))⟩
    cases he
  | case3 c cs hc ih =>
    rw [collapseSpaces_cons_neg hc, noTri_cons]
    refine ⟨fun he => ?_, ih (noTri_tail h)⟩
    have h1 := (noTri_cons.1 h).1 he
    have h2 := runCount_collapseSpaces_le cs
    omega

/-! ### Bridging line structure with `noTri` and `noDbl` -/

/-- Within a line list, no two consecutive all-whitespace lines are followed
by a further line (such a configuration is exactly a `\n\s*\n\s*\n` match in
the joined text). -/
def noPQR : List (List Char) → Prop
  | p :: q :: r :: rest => ¬ (allWs p ∧ allWs q) ∧ noPQR (q :: r :: rest)
  | _ => True

theorem noPQR_tail {x : List Char} {rest : List (List Char)}
    (h : noPQR (x :: rest)) : noPQR rest := by
  match rest with
  | [] => trivial
  | [_] => trivial
  | q :: r :: rest' => exact h.2

theorem noTri_of_nlFree {l : List Char} (h : nlFree l) : noTri l := by
  have := noTri_nlFree_append (r := []) h noTri_nil
  simpa using this

theorem runCount_of_nlFree {l : List Char} (h : nlFree l) : runCount l = 0 := by
  rw [runCount, List.count_eq_zero]
  intro hmem
  exact h ((List.takeWhile_sublist _).subset hmem)

theorem runCount_append_not_allWs {y : List Char} (r : List Char)
    (hnl : nlFree y) (hnw : ¬ allWs y) : runCount (y ++ r) = 0 := by
  induction y with
  | nil => exact absurd (fun c hc => absurd hc (List.not_mem_nil c)) hnw
  | cons c cs ih =>
    by_cases hws : isPySpace c = true
    · have hnlc : c ≠ '\n' := fun he => hnl (he ▸ List.mem_cons_self c cs)
      rw [List.cons_append, runCount_cons_ws _ hws hnlc]
      apply ih (fun hm => hnl (List.mem_cons_of_mem c hm))
      intro hall
      apply hnw
      intro d hd
      rcases List.mem_cons.1 hd with rfl | hd'
      · exact hws
      · exact hall d hd'
    · rw [List.cons_append, runCount_cons_not_ws _ (by simpa using hws)]

theorem count_nl_eq_zero {y : List Char} (h : nlFree y) : y.count '\n' = 0 :=
  List.count_eq_zero.2 h

theorem runCount_joinNl_two {y z w : List Char} {ws : List (List Char)}
    (hy : nlFree y) (hz : nlFree z) (hay : allWs y) (haz : allWs z) :
    2 ≤ runCount (joinNl (y :: z :: w :: ws)) := by
  rw [joinNl_cons_cons, runCount_append_allWs _ hay, count_nl_eq_zero hy,
    runCount_cons_nl, joinNl_cons_cons, runCount_append_allWs _ haz,
    count_nl_eq_zero hz, runCount_cons_nl]
  omega

theorem noTri_joinNl_suffix {x : List Char} {y : List Char}
    {ys : List (List Char)} (h : noTri (joinNl (x :: y :: ys))) :
    noTri (joinNl (y :: ys)) := by
  rw [joinNl_cons_cons] at h
  exact noTri_tail (noTri_append_right h)

/-- Bridge, forward direction: a trigger-free joined text has no
two consecutive whitespace lines followed by more text. -/
theorem noPQR_of_noTri {ls : List (List Char)}
    (hnl : ∀ x ∈ ls, nlFree x) (h : noTri (joinNl ls)) : noPQR ls.tail := by
  induction ls with
  | nil => trivial
  | cons x rest ih =>
    match rest, hnl with
    | [], _ => trivial
    | [y], _ => trivial
    | [y, z], _ => trivial
    | y :: z :: w :: ws, hnl =>
      have hsuf : noTri (joinNl (y :: z :: w :: ws)) := noTri_joinNl_suffix h
      have htail : noPQR ((y :: z :: w :: ws).tail) :=
        ih (fun a ha => hnl a (List.mem_cons_of_mem x ha)) hsuf
      refine ⟨?_, htail⟩
      rintro ⟨hay, haz⟩
      have h2 := @runCount_joinNl_two y z w ws
        (hnl y (by simp)) (hnl z (by simp)) hay haz
      rw [joinNl_cons_cons] at h
      have h3 := noTri_append_right h
      have h4 := (noTri_cons.1 h3).1 rfl
      omega

/-- Bridge, backward direction: absence of the line-level pattern makes the
joined text trigger-free. -/
theorem noTri_of_noPQR {ls : List (List Char)}
    (hnl : ∀ x ∈ ls, nlFree x) (h : noPQR ls.tail) : noTri (joinNl ls) := by
  induction ls with
  | nil => exact noTri_nil
  | cons x rest ih =>
    match rest, hnl, h with
    | [], hnl, _ => exact noTri_of_nlFree (hnl x (by simp))
    | y :: ys, hnl, h =>
      rw [joinNl_cons_cons]
      apply noTri_nlFree_append (hnl x (by simp))
      rw [noTri_cons]
      have hrest : noTri (joinNl (y :: ys)) := by
        apply ih (fun a ha => hnl a (List.mem_cons_of_mem x ha))
        exact noPQR_tail h
      refine ⟨fun _ => ?_, hrest⟩
      -- bound the newline count of the whitespace run after the separator
      match ys, h with
      | [], _ =>
        rw [joinNl, runCount_of_nlFree (hnl y (by simp))]
        omega
      | z :: zs, h =>
        by_cases hay : allWs y
        · rw [joinNl_cons_cons, runCount_append_allWs _ hay,
            count_nl_eq_zero (hnl y (by simp)), runCount_cons_nl]
          rcases zs with - | ⟨w, ws⟩
          · rw [joinNl, runCount_of_nlFree (hnl z (by simp))]
          · have hnaz : ¬ allWs z := fun haz => h.1 ⟨hay, haz⟩
            rw [joinNl_cons_cons,
              runCount_append_not_allWs _ (hnl z (by simp)) hnaz]
        · rw [joinNl_cons_cons,
            runCount_append_not_allWs _ (hnl y (by simp)) hay]
          omega

theorem noDbl_glue {a b : List Char} (ha : noDbl a) (hb : noDbl b)
    (hab : ∀ p q, a.getLast? = some p → b.head? = some q → ¬ (p = ' ' ∧ q = ' ')) :
    noDbl (a ++ b) := by
  induction a with
  | nil => exact hb
  | cons c cs ih =>
    rw [List.cons_append, noDbl_cons]
    constructor
    · intro d hd
      cases cs with
      | nil =>
        simp only [List.nil_append] at hd
        exact hab c d rfl hd
      | cons e es =>
        simp only [List.cons_append, List.head?_cons, Option.some.injEq] at hd
        exact hd ▸ (noDbl_cons.1 ha).1 e rfl
    · apply ih (noDbl_tail ha)
      intro p q hp hq
      apply hab p q ?_ hq
      cases cs with
      | nil => cases hp
      | cons e es => rw [List.getLast?_cons_cons]; exact hp

theorem mem_joinNl_decomp {l : List Char} {ls : List (List Char)}
    (h : l ∈ ls) : ∃ a b, joinNl ls = a ++ (l ++ b) := by
  induction ls with
  | nil => cases h
  | cons x rest ih =>
    rcases List.mem_cons.1 h with rfl | h'
    · cases rest with
      | nil => exact ⟨[], [], by simp [joinNl]⟩
      | cons y ys => exact ⟨[], '\n' :: joinNl (y :: ys), by rw [joinNl_cons_cons]; simp⟩
    · obtain ⟨a, b, hab⟩ := ih h'
      cases rest with
      | nil => cases h'
      | cons y ys =>
        exact ⟨x ++ '\n' :: a, b, by rw [joinNl_cons_cons, hab]; simp⟩

theorem noDbl_of_mem_joinNl {l : List Char} {ls : List (List Char)}
    (hmem : l ∈ ls) (h : noDbl (joinNl ls)) : noDbl l := by
  obtain ⟨a, b, hab⟩ := mem_joinNl_decomp hmem
  rw [hab] at h
  exact noDbl_append_left (noDbl_append_right h)

theorem noDbl_joinNl {ls : List (List Char)} (h : ∀ l ∈ ls, noDbl l) :
    noDbl (joinNl ls) := by
  induction ls with
  | nil => exact noDbl_nil
  | cons x rest ih =>
    cases rest with
    | nil => exact h x (by simp)
    | cons y ys =>
      rw [joinNl_cons_cons]
      apply noDbl_glue (h x (by simp))
      · rw [noDbl_cons]
        refine ⟨fun d _ hp => ?_, ih (fun a ha => h a (List.mem_cons_of_mem x ha))⟩
        cases hp.1
      · intro p q _ hq hp
        rw [List.head?_cons, Option.some.injEq] at hq
        rw [← hq] at hp
        cases hp.2

theorem pyStrip_noDbl {l : List Char} (h : noDbl l) : noDbl (pyStrip l) := by
  obtain ⟨e₁, e₂, he, -, -⟩ := exists_pyStrip_decomp l
  rw [he, List.append_assoc] at h
  exact noDbl_append_left (noDbl_append_right h)

theorem pyStrip_allWs_rev {l : List Char} (h : allWs (pyStrip l)) : allWs l :=
  allWs_pyStrip_rev h

/-- `stripLines` preserves absence of double spaces. -/
theorem noDbl_stripLines {z : List Char} (h : noDbl z) :
    noDbl (stripLines z) := by
  rw [stripLines]
  apply noDbl_joinNl
  intro l hl
  rw [List.mem_map] at hl
  obtain ⟨x, hx, rfl⟩ := hl
  apply pyStrip_noDbl
  apply noDbl_of_mem_joinNl hx
  rw [joinNl_splitNl]
  exact h

theorem noPQR_map_pyStrip {m : List (List Char)} (h : noPQR m) :
    noPQR (m.map pyStrip) := by
  match m, h with
  | [], _ => trivial
  | [p], _ => trivial
  | [p, q], _ => trivial
  | p :: q :: r :: rest, h =>
    refine ⟨fun hpq => h.1 ⟨pyStrip_allWs_rev hpq.1, pyStrip_allWs_rev hpq.2⟩, ?_⟩
    exact noPQR_map_pyStrip (m := q :: r :: rest) h.2

/-- `stripLines` preserves absence of triple-newline runs. -/
theorem noTri_stripLines {z : List Char} (h : noTri z) :
    noTri (stripLines z) := by
  rw [stripLines]
  have hlines : ∀ x ∈ splitNl z, nlFree x := fun x hx => nlFree_of_mem_splitNl hx
  have h1 : noTri (joinNl (splitNl z)) := by rw [joinNl_splitNl]; exact h
  have h2 : noPQR (splitNl z).tail := noPQR_of_noTri hlines h1
  apply noTri_of_noPQR
  · intro x hx
    rw [List.mem_map] at hx
    obtain ⟨y, hy, rfl⟩ := hx
    exact nlFree_pyStrip (hlines y hy)
  · have htm : ∀ (f : List Char → List Char) (m : List (List Char)),
        (m.map f).tail = m.tail.map f := by
      intro f m; cases m <;> rfl
    rw [htm]
    exact noPQR_map_pyStrip h2

theorem noTri_pyStrip {z : List Char} (h : noTri z) : noTri (pyStrip z) := by
  rw [pyStrip]
  have h1 : noTri (pyStripL z) := noTri_dropWhile _ h
  obtain ⟨e, he, -⟩ := exists_pyStripR_decomp (pyStripL z)
  rw [he] at h1
  exact noTri_append_left h1

theorem noDbl_pyStrip {z : List Char} (h : noDbl z) : noDbl (pyStrip z) :=
  pyStrip_noDbl h

/-! ### Lines of the result are stripped -/

/-- Every line of the text is free of leading and trailing whitespace. -/
def LinesStripped (y : List Char) : Prop :=
  ∀ l ∈ splitNl y, pyStrip l = l

theorem linesStripped_stripLines (x : List Char) :
    LinesStripped (stripLines x) := by
  intro l hl
  rw [stripLines] at hl
  rw [splitNl_joinNl (by simpa using splitNl_ne_nil x)
    (fun a ha => by
      rw [List.mem_map] at ha
      obtain ⟨b, hb, rfl⟩ := ha
      exact nlFree_pyStrip (nlFree_of_mem_splitNl hb))] at hl
  rw [List.mem_map] at hl
  obtain ⟨b, _, rfl⟩ := hl
  exact pyStrip_idem b

theorem map_eq_self_of_eq {α : Type} {f : α → α} {l : List α}
    (h : ∀ a ∈ l, f a = a) : l.map f = l := by
  induction l with
  | nil => rfl
  | cons x xs ih =>
    rw [List.map_cons, h x (by simp), ih (fun a ha => h a (List.mem_cons_of_mem x ha))]

theorem linesStripped_fix {y : List Char} (h : LinesStripped y) :
    stripLines y = y := by
  rw [stripLines, map_eq_self_of_eq h, joinNl_splitNl]

theorem pyStripL_join_stripped {ls : List (List Char)}
    (h : ∀ l ∈ ls, Stripped l) :
    pyStripL (joinNl ls) = joinNl (ls.dropWhile (fun l => l.isEmpty)) := by
  induction ls with
  | nil => rfl
  | cons x rest ih =>
    by_cases hx : x = []
    · subst hx
      cases rest with
      | nil => rfl
      | cons y ys =>
        rw [joinNl_cons_cons, List.nil_append,
          List.dropWhile_cons_of_pos (by simp)]
        rw [pyStripL, List.dropWhile_cons_of_pos isPySpace_nl]
        exact ih (fun a ha => h a (List.mem_cons_of_mem _ ha))
    · have hhd : headNW x := (h x (by simp)).1
      obtain ⟨c, cs, rfl⟩ := List.exists_cons_of_ne_nil hx
      have hc : isPySpace c = false := hhd c rfl
      rw [List.dropWhile_cons_of_neg (by simp [List.isEmpty])]
      cases rest with
      | nil => exact pyStripL_eq_self _ hhd
      | cons y ys =>
        rw [joinNl_cons_cons, pyStripL, List.cons_append,
          List.dropWhile_cons_of_neg (by simp [hc])]

theorem joinNl_append_singleton {ms : List (List Char)} {t : List Char}
    (hne : ms ≠ []) : joinNl (ms ++ [t]) = joinNl ms ++ '\n' :: t := by
  induction ms with
  | nil => exact absurd rfl hne
  | cons x rest ih =>
    cases rest with
    | nil => rfl
    | cons y ys =>
      have ih' := ih (by simp)
      rw [List.cons_append] at ih'
      rw [List.cons_append, List.cons_append, joinNl_cons_cons x y (ys ++ [t]),
        ih', joinNl_cons_cons x y ys]
      simp

theorem joinNl_reverse (ls : List (List Char)) :
    (joinNl ls).reverse = joinNl (ls.reverse.map List.reverse) := by
  induction ls with
  | nil => rfl
  | cons x rest ih =>
    cases rest with
    | nil => rfl
    | cons y ys =>
      have hM : (y :: ys).reverse.map List.reverse ≠ [] := by simp
      calc (joinNl (x :: y :: ys)).reverse
          = (joinNl (y :: ys)).reverse ++ '\n' :: x.reverse := by
            rw [joinNl_cons_cons]; simp
        _ = joinNl ((y :: ys).reverse.map List.reverse) ++ '\n' :: x.reverse := by
            rw [ih]
        _ = joinNl ((y :: ys).reverse.map List.reverse ++ [x.reverse]) :=
            (joinNl_append_singleton hM).symm
        _ = joinNl ((x :: y :: ys).reverse.map List.reverse) := by simp

theorem stripped_reverse {l : List Char} (h : Stripped l) :
    Stripped l.reverse := by
  constructor
  · intro c hc
    rw [List.head?_reverse] at hc
    exact h.2 c hc
  · intro c hc
    have : l.reverse.reverse.head? = some c := by
      rw [List.head?_reverse]; exact hc
    rw [List.reverse_reverse] at this
    exact h.1 c this

theorem pyStripR_join_stripped {ls : List (List Char)}
    (h : ∀ l ∈ ls, Stripped l) :
    pyStripR (joinNl ls)
      = joinNl ((ls.reverse.dropWhile (fun l => l.isEmpty)).reverse) := by
  have h1 : (joinNl ls).reverse = joinNl (ls.reverse.map List.reverse) :=
    joinNl_reverse ls
  have h2 : ∀ l ∈ ls.reverse.map List.reverse, Stripped l := by
    intro l hl
    rw [List.mem_map] at hl
    obtain ⟨a, ha, rfl⟩ := hl
    exact stripped_reverse (h a (List.mem_reverse.1 ha))
  have h3 : pyStripL ((joinNl ls).reverse)
      = joinNl ((ls.reverse.map List.reverse).dropWhile (fun l => l.isEmpty)) := by
    rw [h1]; exact pyStripL_join_stripped h2
  have h4 : (ls.reverse.map List.reverse).dropWhile (fun l => l.isEmpty)
      = (ls.reverse.dropWhile (fun l => l.isEmpty)).map List.reverse := by
    rw [List.dropWhile_map]
    have hfun : ((fun l : List Char => l.isEmpty) ∘ List.reverse)
        = (fun l : List Char => l.isEmpty) := by
      funext a
      simp only [Function.comp]
      cases a <;> simp
    rw [hfun]
  rw [pyStripR, pyStripL] at *
  rw [h3, h4]
  have h5 := joinNl_reverse ((ls.reverse.dropWhile (fun l => l.isEmpty)).reverse)
  rw [List.reverse_reverse] at h5
  rw [← h5, List.reverse_reverse]

theorem linesStripped_of_all {ms : List (List Char)}
    (hnl : ∀ l ∈ ms, nlFree l) (hst : ∀ l ∈ ms, Stripped l) :
    LinesStripped (joinNl ms) := by
  intro l hl
  cases hms : ms with
  | nil =>
    rw [hms] at hl
    simp only [joinNl, splitNl, List.mem_singleton] at hl
    subst hl
    rfl
  | cons x rest =>
    rw [hms] at hl
    rw [splitNl_joinNl (by simp) (fun a ha => hnl a (hms ▸ ha))] at hl
    exact pyStrip_eq_self (hst l (hms ▸ hl))

theorem linesStripped_pyStrip {y : List Char} (h : LinesStripped y) :
    LinesStripped (pyStrip y) := by
  have hnl : ∀ l ∈ splitNl y, nlFree l := fun l hl => nlFree_of_mem_splitNl hl
  have hst : ∀ l ∈ splitNl y, Stripped l := by
    intro l hl
    have := h l hl
    rw [← this]
    exact stripped_pyStrip l
  have hy : y = joinNl (splitNl y) := (joinNl_splitNl y).symm
  rw [pyStrip, hy, pyStripL_join_stripped hst]
  set ms₁ := (splitNl y).dropWhile (fun l => l.isEmpty) with hms₁
  have hsub₁ : ∀ l ∈ ms₁, l ∈ splitNl y := by
    intro l hl
    exact (List.dropWhile_sublist _).subset hl
  rw [pyStripR_join_stripped (fun l hl => hst l (hsub₁ l hl))]
  set ms₂ := (ms₁.reverse.dropWhile (fun l => l.isEmpty)).reverse with hms₂
  have hsub₂ : ∀ l ∈ ms₂, l ∈ splitNl y := by
    intro l hl
    rw [hms₂, List.mem_reverse] at hl
    have := (List.dropWhile_sublist _).subset hl
    rw [List.mem_reverse] at this
    exact hsub₁ l this
  apply linesStripped_of_all
  · exact fun l hl => hnl l (hsub₂ l hl)
  · exact fun l hl => hst l (hsub₂ l hl)

/-- The list-level cleaning function is idempotent. -/
theorem cleanText_idem (l : List Char) : cleanText (cleanText l) = cleanText l := by
  have hTri : noTri (cleanText l) :=
    noTri_pyStrip (noTri_stripLines (noTri_collapseSpaces (noTri_collapseNl l)))
  have hDbl : noDbl (cleanText l) :=
    noDbl_pyStrip (noDbl_stripLines (noDbl_collapseSpaces (collapseNl l)))
  have hLS : LinesStripped (cleanText l) :=
    linesStripped_pyStrip (linesStripped_stripLines _)
  have hStr : Stripped (cleanText l) := stripped_pyStrip _
  conv_lhs => rw [cleanText]
  rw [noTri_fix hTri, noDbl_fix hDbl, linesStripped_fix hLS, pyStrip_eq_self hStr]

/-- C3: `_clean_text` is idempotent: for every string `x`,
`_clean_text(_clean_text(x)) = _clean_text(x)`, where cleaning collapses
3-or-more consecutive newlines (with interleaved whitespace) to two,
collapses runs of spaces to one, strips each line's edges, and strips the
whole result. -/
theorem C3_clean_text_idempotent (s : String) :
    cleanTextS (cleanTextS s) = cleanTextS s :=
  congrArg String.mk (cleanText_idem s.data)

example : cleanTextS ⟨['a', '\n', '\n', '\n', 'b']⟩ = ⟨['a', '\n', '\n', 'b']⟩ := by
  simp [cleanTextS, cleanText, collapseNl, collapseSpaces, stripLines, splitNl,
    joinNl, pyStrip, pyStripL, pyStripR, runCount, dropRun, afterLastNl, isPySpace]

/-! ## The DOM model

A parsed BeautifulSoup document is a tree of element tags and text nodes.
Attribute values, text and URLs are modelled as `List Char` (Python `str`);
tag and attribute names as Lean `String`.  bs4 `Tag.__eq__` is structural
(same name, attributes, contents), which the derived `DecidableEq` mirrors. -/

/-- Shorthand turning a string literal into its character list. -/
def str (s : String) : List Char := s.data

inductive Node where
  | text (s : List Char)
  | elem (name : String) (attrs : List (String × List Char)) (children : List Node)
deriving Repr

mutual
def Node.beq : Node → Node → Bool
  | .text s, .text t => s == t
  | .elem n a cs, .elem m b ds => n == m && a == b && Node.beqList cs ds
  | .text _, .elem _ _ _ => false
  | .elem _ _ _, .text _ => false

def Node.beqList : List Node → List Node → Bool
  | [], [] => true
  | c :: cs, d :: ds => Node.beq c d && Node.beqList cs ds
  | [], _ :: _ => false
  | _ :: _, [] => false
end

mutual
theorem Node.beq_iff : ∀ a b : Node, Node.beq a b = true ↔ a = b
  | .text s, .text t => by
    simp [Node.beq]
  | .elem n a cs, .elem m b ds => by
    simp only [Node.beq, Bool.and_eq_true, beq_iff_eq, Node.elem.injEq]
    rw [and_assoc, Node.beqList_iff cs ds]
  | .text _, .elem _ _ _ => by simp [Node.beq]
  | .elem _ _ _, .text _ => by simp [Node.beq]

theorem Node.beqList_iff : ∀ cs ds : List Node, Node.beqList cs ds = true ↔ cs = ds
  | [], [] => by simp [Node.beqList]
  | c :: cs, d :: ds => by
    simp only [Node.beqList, Bool.and_eq_true, List.cons.injEq]
    rw [Node.beq_iff c d, Node.beqList_iff cs ds]
  | [], _ :: _ => by simp [Node.beqList]
  | _ :: _, [] => by simp [Node.beqList]
end

instance : DecidableEq Node := fun a b => decidable_of_iff _ (Node.beq_iff a b)

namespace Node

/-- `element.get(key)`: first attribute with the given name. -/
def attr? : Node → String → Option (List Char)
  | .text _, _ => none
  | .elem _ attrs _, k => (attrs.find? (fun p => p.1 == k)).map Prod.snd

def name? : Node → Option String
  | .text _ => none
  | .elem n _ _ => some n

def nameIs (n : Node) (nm : String) : Bool := n.name? == some nm

def nameIn (n : Node) (nms : List String) : Bool :=
  match n.name? with
  | some nm => nms.contains nm
  | none => false

def isTag : Node → Bool
  | .text _ => false
  | .elem _ _ _ => true

def childList : Node → List Node
  | .text _ => []
  | .elem _ _ cs => cs

end Node

mutual
/-- All descendants of a node in document (pre-)order, excluding the node. -/
def Node.descendants : Node → List Node
  | .text _ => []
  | .elem _ _ cs => descList cs

def descList : List Node → List Node
  | [] => []
  | c :: cs => c :: c.descendants ++ descList cs
end

mutual
/-- The descendant text-node strings of a node, in document order
(a text node yields its own string). -/
def Node.strings : Node → List (List Char)
  | .text s => [s]
  | .elem _ _ cs => stringsList cs

def stringsList : List Node → List (List Char)
  | [] => []
  | c :: cs => c.strings ++ stringsList cs
end

/-- `get_text(strip=True)`: concatenation of every descendant string
stripped, skipping those that strip to nothing. -/
def Node.getTextStrip (n : Node) : List Char :=
  ((n.strings.map pyStrip).filter (fun s => !s.isEmpty)).flatten

/-- `get_text()`: concatenation of every descendant string verbatim. -/
def Node.getTextRaw (n : Node) : List Char := n.strings.flatten

mutual
/-- One node under `decompose`: `none` when the node is a removed element. -/
def removeTags? (nms : List String) : Node → Option Node
  | .text s => some (.text s)
  | .elem n a cs =>
    if nms.contains n then none
    else some (.elem n a (removeTagsList nms cs))

def removeTagsList (nms : List String) : List Node → List Node
  | [] => []
  | c :: rest =>
    match removeTags? nms c with
    | none => removeTagsList nms rest
    | some c' => c' :: removeTagsList nms rest
end

/-- `soup([...]).decompose()`: remove every element whose tag name is in
`nms`, together with its whole subtree (the root itself is the document
and is never removed). -/
def removeTags (nms : List String) : Node → Node
  | .text s => .text s
  | .elem n a cs => .elem n a (removeTagsList nms cs)

/-- Accumulator pass behind `splitWs`; `acc` holds the reversed current word. -/
def splitWsAux : List Char → List Char → List (List Char)
  | [], acc => if acc.isEmpty then [] else [acc.reverse]
  | c :: cs, acc =>
    if isPySpace c then
      if acc.isEmpty then splitWsAux cs [] else acc.reverse :: splitWsAux cs []
    else splitWsAux cs (c :: acc)

/-- Python `str.split()`: the maximal non-whitespace runs, in order. -/
def splitWs (l : List Char) : List (List Char) := splitWsAux l []

/-- The class tokens of an element (`element.get('class', [])`; bs4 splits
the attribute on whitespace). -/
def Node.classTokens (n : Node) : List (List Char) :=
  match n.attr? "class" with
  | some v => splitWs v
  | none => []

/-- `' '.join(element.get('class', []))`. -/
def Node.classJoined (n : Node) : List Char :=
  List.intercalate [' '] n.classTokens

/-- The CSS selectors the extractor uses. -/
inductive Sel where
  | tag (name : String)
  | cls (c : List Char)
  | idIs (i : List Char)
  | role (r : List Char)
deriving DecidableEq, Repr

def matchesSel (s : Sel) (n : Node) : Bool :=
  match s with
  | .tag nm => n.nameIs nm
  | .cls c => n.classTokens.contains c
  | .idIs i => n.attr? "id" == some i
  | .role r => n.attr? "role" == some r

/-- `soup.select_one(sel)`: first matching descendant in document order. -/
def selectOne (root : Node) (s : Sel) : Option Node :=
  root.descendants.find? (matchesSel s)

/-- First selector of the priority list that matches anything. -/
def selectFirstOf (root : Node) : List Sel → Option Node
  | [] => none
  | s :: rest =>
    match selectOne root s with
    | some n => some n
    | none => selectFirstOf root rest

/-- `soup.find(name)`. -/
def findTag (root : Node) (nm : String) : Option Node :=
  root.descendants.find? (fun n => n.nameIs nm)

/-- `soup.find_all(names)` (descendants, document order). -/
def findAllOf (root : Node) (nms : List String) : List Node :=
  root.descendants.filter (fun n => n.nameIn nms)

example :
    (Node.elem "div" [("class", str "a b")] [.text (str "x")]).classTokens
      = [str "a", str "b"] := by decide

example :
    selectOne (Node.elem "html" [] [Node.elem "body" []
      [Node.elem "div" [("id", str "content")] []]]) (.idIs (str "content"))
      = some (Node.elem "div" [("id", str "content")] []) := by decide

/-! ## The structural walker (`_process_element`) -/

def noiseNames : List String :=
  ["script", "style", "nav", "header", "footer", "iframe", "noscript", "aside"]

def containerNames : List String := ["div", "section", "article", "main"]

/-- A tracked container record of the normal extraction path
(`container_info` in `_process_element`). -/
structure CInfo where
  etype : String
  eid : Option (List Char)
  ecls : Option (List Char)
  contentLength : Nat
  preview : List Char
deriving DecidableEq, Repr

/-- `container_text[:100].strip() + '...' if len(container_text) > 100 else
container_text.strip()`. -/
def normalPreview (t : List Char) : List Char :=
  if 100 < t.length then pyStrip (t.take 100) ++ str "..." else pyStrip t

def mkCInfo (nm : String) (el : Node) (t : List Char) : CInfo :=
  { etype := nm
    eid :=
      match el.attr? "id" with
      | some v => if v.isEmpty then none else some v
      | none => none
    ecls := if el.classJoined.isEmpty then none else some el.classJoined
    contentLength := t.length
    preview := normalPreview t }

/-- The duplicate-suppression identity key comparison
(`type`, `id`, `classes`). -/
def sameKeyB (a b : CInfo) : Bool :=
  a.etype == b.etype && a.eid == b.eid && a.ecls == b.ecls

/-- Record a container descriptor unless an equal-key one is tracked already
(no-op when tracking is off or the emitted text is blank). -/
def trackContainer (nm : String) (el : Node) (txt : List Char) :
    Option (List CInfo) → Option (List CInfo)
  | none => none
  | some lst =>
    if (pyStrip txt).isEmpty then some lst
    else
      let info := mkCInfo nm el txt
      if lst.any (fun c => sameKeyB c info) then some lst
      else some (lst ++ [info])

def headingLevel? (nm : String) : Option Nat :=
  if nm = "h1" then some 1
  else if nm = "h2" then some 2
  else if nm = "h3" then some 3
  else if nm = "h4" then some 4
  else if nm = "h5" then some 5
  else if nm = "h6" then some 6
  else none

def natChars (n : Nat) : List Char := (Nat.repr n).data

/-- The final `else` arm: emit text only for elements without child tags. -/
def otherLeafEmit (el : Node) : List Char :=
  if (el.childList.filter Node.isTag).isEmpty then
    let t := el.getTextStrip
    if t.isEmpty then [] else t ++ [' ']
  else []

def tableRowEmit (row : Node) : List Char :=
  let cells := row.descendants.filter (fun c => c.nameIn ["td", "th"])
  if cells.isEmpty then []
  else str "| " ++ List.intercalate (str " | ") (cells.map Node.getTextStrip)
    ++ str " |\n"

/-- The per-element emission of every non-container branch of
`_process_element`, in the order of the source `elif` chain. -/
def simpleEmit (parent : Option String) (nm : String) (el : Node) : List Char :=
  match headingLevel? nm with
  | some lv =>
    let t := el.getTextStrip
    if t.isEmpty then []
    else '\n' :: (List.replicate lv '#' ++ ' ' :: t ++ str "\n\n")
  | none =>
    if nm = "p" then
      let t := el.getTextStrip
      if t.isEmpty then [] else t ++ str "\n\n"
    else if nm = "br" then ['\n']
    else if nm = "blockquote" then
      let t := el.getTextStrip
      if t.isEmpty then []
      else
        List.intercalate ['\n']
          (((splitNl t).filter (fun ln => !(pyStrip ln).isEmpty)).map
            (fun ln => str "> " ++ ln)) ++ str "\n\n"
    else if nm = "ul" then
      (el.childList.filter (fun c => c.nameIs "li")).flatMap
        (fun li =>
          let t := li.getTextStrip
          if t.isEmpty then [] else str "- " ++ t ++ ['\n']) ++ ['\n']
    else if nm = "ol" then
      (List.enumFrom 1 (el.childList.filter (fun c => c.nameIs "li"))).flatMap
        (fun p =>
          let t := p.2.getTextStrip
          if t.isEmpty then [] else natChars p.1 ++ str ". " ++ t ++ ['\n'])
        ++ ['\n']
    else if nm = "hr" then str "\n---\n\n"
    else if nm = "pre" then str "\n```\n" ++ el.getTextRaw ++ str "\n```\n\n"
    else if nm = "code" && parent != some "pre" then
      '`' :: (el.getTextRaw ++ ['`'])
    else if nm = "strong" || nm = "b" then
      let t := el.getTextStrip
      if t.isEmpty then [] else str "**" ++ t ++ str "**"
    else if nm = "em" || nm = "i" then
      let t := el.getTextStrip
      if t.isEmpty then [] else str "*" ++ t ++ str "*"
    else if nm = "table" then
      '\n' :: ((el.descendants.filter (fun r => r.nameIs "tr")).flatMap
        tableRowEmit ++ ['\n'])
    else if nm = "a" then
      let t := el.getTextStrip
      if t.isEmpty then []
      else
        let href := (el.attr? "href").getD []
        if !href.isEmpty && (str "http").isPrefixOf href then
          '[' :: (t ++ str "](" ++ href ++ [')'])
        else t
    else otherLeafEmit el

mutual
/-- `_process_element`: emits text, threads the `processed_elements` list
(bs4 equality is structural) and the optional container tracker. -/
def procEl (parent : Option String) (el : Node) (pr : List Node)
    (tr : Option (List CInfo)) : List Char × List Node × Option (List CInfo) :=
  if el ∈ pr then ([], pr, tr)
  else
    match el with
    | .text _ => ([], el :: pr, tr)
    | .elem nm _ kids =>
      if containerNames.contains nm then
        let r := procKids nm kids (el :: pr) tr
        (r.1, r.2.1, trackContainer nm el r.1 r.2.2)
      else (simpleEmit parent nm el, el :: pr, tr)

/-- The `for child in element.children` loop of the container branch. -/
def procKids (parent : String) (ks : List Node) (pr : List Node)
    (tr : Option (List CInfo)) : List Char × List Node × Option (List CInfo) :=
  match ks with
  | [] => ([], pr, tr)
  | .text s :: rest =>
    let r := procKids parent rest pr tr
    ((if (pyStrip s).isEmpty then [] else pyStrip s ++ [' ']) ++ r.1, r.2)
  | .elem nm a cs :: rest =>
    let r1 := procEl (some parent) (.elem nm a cs) pr tr
    let r2 := procKids parent rest r1.2.1 r1.2.2
    (r1.1 ++ r2.1, r2.2)
end

/-- `_extract_text_with_structure`. -/
def extractTextWithStructure (el : Node) (tr : Option (List CInfo)) :
    List Char × Option (List CInfo) :=
  let r := procEl none el [] tr
  (r.1, r.2.2)

/-! ## `extract_content`: normal and Chinese (CJK) modes -/

/-- `_is_chinese_char`: CJK Unified Ideographs, Extension A, Extension B. -/
def isChineseChar (c : Char) : Bool :=
  (0x4E00 ≤ c.toNat && c.toNat ≤ 0x9FFF) ||
  (0x3400 ≤ c.toNat && c.toNat ≤ 0x4DBF) ||
  (0x20000 ≤ c.toNat && c.toNat ≤ 0x2A6DF)

/-- `_calculate_chinese_percentage` (floats modelled as exact rationals). -/
def chinesePct (t : List Char) : ℚ :=
  if t.isEmpty then 0
  else
    let tw := t.filter (fun c => !isPySpace c)
    if tw.isEmpty then 0
    else ((tw.filter isChineseChar).length : ℚ) / tw.length

/-- Container record of the Chinese-mode scan, with the `element` still
attached. -/
structure CjkInfo where
  element : Node
  etype : String
  eid : Option (List Char)
  ecls : Option (List Char)
  contentLength : Nat
  preview : List Char
  selected : Bool
  chinesePct : ℚ
deriving DecidableEq, Repr

/-- A Chinese-mode container record as returned to the caller (the
`element` key is dropped). -/
structure CjkOut where
  etype : String
  eid : Option (List Char)
  ecls : Option (List Char)
  contentLength : Nat
  preview : List Char
  selected : Bool
  chinesePct : ℚ
deriving DecidableEq, Repr

def CjkInfo.toOut (c : CjkInfo) : CjkOut :=
  { etype := c.etype, eid := c.eid, ecls := c.ecls,
    contentLength := c.contentLength, preview := c.preview,
    selected := c.selected, chinesePct := c.chinesePct }

/-- Python `round(x, 1)` (ties modelled by `round`). -/
def round1 (q : ℚ) : ℚ := (round (q * 10) : ℤ) / 10

/-- `container_text[:200] + ('...' if len(container_text) > 200 else '')`. -/
def cjkPreview (t : List Char) : List Char :=
  t.take 200 ++ (if 200 < t.length then str "..." else [])

def mkCjkInfo (c : Node) (t : List Char) (pct : ℚ) : CjkInfo :=
  { element := c
    etype := (c.name?).getD ""
    eid := c.attr? "id"
    ecls := if c.classJoined.isEmpty then none else some c.classJoined
    contentLength := t.length
    preview := cjkPreview t
    selected := true
    chinesePct := round1 (pct * 100) }

/-- The Chinese-mode candidate scan: every `div, section, article, main, p`
under the body whose stripped text has at least 50 characters and whose
CJK density exceeds one half. -/
def chineseCandidates (body : Node) : List CjkInfo :=
  (findAllOf body ["div", "section", "article", "main", "p"]).filterMap
    (fun c =>
      let t := c.getTextStrip
      if t.isEmpty || t.length < 50 then none
      else
        let pct := chinesePct t
        if 1/2 < pct then some (mkCjkInfo c t pct) else none)

/-- Stable insertion of `a` into a sorted list: `a` is placed before the
first element it compares `le` to, so earlier elements with an equal key
stay in front. -/
def insertStable {α : Type} (le : α → α → Bool) (a : α) : List α → List α
  | [] => [a]
  | b :: bs => if le a b then a :: b :: bs else b :: insertStable le a bs

/-- Stable sort (model of Python's stable `list.sort`). -/
def insSort {α : Type} (le : α → α → Bool) : List α → List α
  | [] => []
  | x :: xs => insertStable le x (insSort le xs)

theorem insertStable_perm {α : Type} (le : α → α → Bool) (a : α)
    (l : List α) : (insertStable le a l).Perm (a :: l) := by
  induction l with
  | nil => exact List.Perm.refl _
  | cons b bs ih =>
    rw [insertStable]
    split
    · exact List.Perm.refl _
    · exact ((ih.cons b).trans (List.Perm.swap a b bs))

theorem insSort_perm {α : Type} (le : α → α → Bool) (l : List α) :
    (insSort le l).Perm l := by
  induction l with
  | nil => exact List.Perm.refl _
  | cons x xs ih =>
    rw [insSort]
    exact (insertStable_perm le x (insSort le xs)).trans (ih.cons x)

theorem mem_insSort {α : Type} {le : α → α → Bool} {l : List α} {a : α} :
    a ∈ insSort le l ↔ a ∈ l :=
  (insSort_perm le l).mem_iff

theorem insertStable_pairwise {α : Type} {le : α → α → Bool}
    (htrans : ∀ a b c, le a b = true → le b c = true → le a c = true)
    (htot : ∀ a b, (le a b || le b a) = true)
    {a : α} {l : List α} (hl : l.Pairwise (fun x y => le x y = true)) :
    (insertStable le a l).Pairwise (fun x y => le x y = true) := by
  induction l with
  | nil => exact List.pairwise_singleton _ _
  | cons b bs ih =>
    rw [insertStable]
    split
    · rename_i hab
      refine List.Pairwise.cons ?_ hl
      intro c hc
      rcases List.mem_cons.1 hc with rfl | hc'
      · exact hab
      · exact htrans a b c hab ((List.pairwise_cons.1 hl).1 c hc')
    · rename_i hab
      have hba : le b a = true := by
        have h := htot a b
        cases hba2 : le b a
        · rw [hba2, Bool.or_false] at h
          exact absurd h hab
        · rfl
      refine List.Pairwise.cons ?_ (ih (List.pairwise_cons.1 hl).2)
      intro c hc
      rcases List.mem_cons.1 ((insertStable_perm le a bs).mem_iff.1 hc)
        with rfl | hc'
      · exact hba
      · exact (List.pairwise_cons.1 hl).1 c hc'

theorem insSort_pairwise {α : Type} {le : α → α → Bool}
    (htrans : ∀ a b c, le a b = true → le b c = true → le a c = true)
    (htot : ∀ a b, (le a b || le b a) = true) (l : List α) :
    (insSort le l).Pairwise (fun x y => le x y = true) := by
  induction l with
  | nil => exact List.Pairwise.nil
  | cons x xs ih =>
    rw [insSort]
    exact insertStable_pairwise htrans htot ih

/-- `chinese_containers.sort(key=lambda x: x['content_length'], reverse=True)`
(Python sort is stable). -/
def sortCjk (l : List CjkInfo) : List CjkInfo :=
  insSort (fun a b => Nat.ble b.contentLength a.contentLength) l

/-- `body = soup.find('body') or soup`. -/
def cjkBody (dom2 : Node) : Node := (findTag dom2 "body").getD dom2

/-- The Chinese-mode walk root: the largest qualifying container, else the
body element. -/
def cjkRoot (body : Node) : Node :=
  match sortCjk (chineseCandidates body) with
  | [] => body
  | c :: _ => c.element

def contentSels : List Sel :=
  [.tag "article", .tag "main", .role (str "main"), .cls (str "content"),
   .cls (str "post-content"), .cls (str "article-content"),
   .idIs (str "content"), .idIs (str "main"), .cls (str "entry-content")]

/-- Root selection of the normal path: priority selectors, then body, then
the whole document. -/
def normalRoot (dom2 : Node) : Node :=
  match selectFirstOf dom2 contentSels with
  | some m => m
  | none =>
    match findTag dom2 "body" with
    | some b => b
    | none => dom2

/-- The container payload accompanying extracted text (Python returns
`None`, a list of normal-path dicts, or a list of Chinese-mode dicts). -/
inductive Tracked where
  | noTrack : Tracked
  | normal (cs : List CInfo) : Tracked
  | cjk (cs : List CjkOut) : Tracked
deriving DecidableEq, Repr

/-- `extract_content(html, track_containers, chinese_mode)`. -/
def extractContent (dom : Node) (track chinese : Bool) : List Char × Tracked :=
  let dom2 := removeTags noiseNames dom
  if chinese then
    let body := cjkBody dom2
    let sorted := sortCjk (chineseCandidates body)
    let text := cleanText (procEl none (cjkRoot body) [] none).1
    (text, if track then Tracked.cjk (sorted.map CjkInfo.toOut) else Tracked.noTrack)
  else
    let root := normalRoot dom2
    let r := procEl none root [] (if track then some [] else none)
    (cleanText r.1,
      match r.2.2 with
      | some l => Tracked.normal l
      | none => Tracked.noTrack)

/-! ## Walker tracker invariants -/

theorem procEl_text_eq (p : Option String) (pr : List Node)
    (tr : Option (List CInfo)) (s : List Char) :
    procEl p (.text s) pr tr =
      if (Node.text s) ∈ pr then ([], pr, tr) else ([], .text s :: pr, tr) := rfl

theorem procEl_elem_eq (p : Option String) (pr : List Node)
    (tr : Option (List CInfo)) (nm : String) (a : List (String × List Char))
    (kids : List Node) :
    procEl p (.elem nm a kids) pr tr =
      if (Node.elem nm a kids) ∈ pr then ([], pr, tr)
      else if containerNames.contains nm then
        let r := procKids nm kids (.elem nm a kids :: pr) tr
        (r.1, r.2.1, trackContainer nm (.elem nm a kids) r.1 r.2.2)
      else (simpleEmit p nm (.elem nm a kids), .elem nm a kids :: pr, tr) := rfl

theorem procKids_nil_eq (p : String) (pr : List Node) (tr : Option (List CInfo)) :
    procKids p [] pr tr = ([], pr, tr) := rfl

theorem procKids_text_eq (p : String) (pr : List Node) (tr : Option (List CInfo))
    (s : List Char) (rest : List Node) :
    procKids p (.text s :: rest) pr tr =
      let r := procKids p rest pr tr
      ((if (pyStrip s).isEmpty then [] else pyStrip s ++ [' ']) ++ r.1, r.2) := rfl

theorem procKids_elem_eq (p : String) (pr : List Node) (tr : Option (List CInfo))
    (nm : String) (a : List (String × List Char)) (cs rest : List Node) :
    procKids p (.elem nm a cs :: rest) pr tr =
      let r1 := procEl (some p) (.elem nm a cs) pr tr
      let r2 := procKids p rest r1.2.1 r1.2.2
      (r1.1 ++ r2.1, r2.2) := rfl

theorem sizeOf_kids_lt (nm : String) (a : List (String × List Char))
    (cs : List Node) : sizeOf cs < sizeOf (Node.elem nm a cs) := by
  have := Node.elem.sizeOf_spec nm a cs
  omega

theorem sizeOf_head_lt (k : Node) (rest : List Node) :
    sizeOf k < sizeOf (k :: rest) := by
  simp only [List.cons.sizeOf_spec]
  omega

theorem sizeOf_rest_lt (k : Node) (rest : List Node) :
    sizeOf rest < sizeOf (k :: rest) := by
  simp only [List.cons.sizeOf_spec]
  have : 0 < sizeOf k := by
    cases k
    · rw [Node.text.sizeOf_spec]; omega
    · rw [Node.elem.sizeOf_spec]; omega
  omega

/-- Every invariant of the optional tracker that `trackContainer` preserves
is preserved by the whole walk. -/
theorem walker_pres (I : Option (List CInfo) → Prop)
    (Hcl : ∀ nm el txt tr, I tr → I (trackContainer nm el txt tr)) :
    ∀ N : Nat,
      (∀ p el pr tr, sizeOf el ≤ N → I tr → I ((procEl p el pr tr).2.2)) ∧
      (∀ p ks pr tr, sizeOf ks ≤ N → I tr → I ((procKids p ks pr tr).2.2)) := by
  intro N
  induction N using Nat.strong_induction_on with
  | _ N ih =>
    constructor
    · intro p el pr tr hsz hI
      match el, hsz with
      | .text s, _ =>
        rw [procEl_text_eq]
        split <;> exact hI
      | .elem nm a kids, hsz =>
        rw [procEl_elem_eq]
        split
        · exact hI
        · split
          · have hk : sizeOf kids < N :=
              Nat.lt_of_lt_of_le (sizeOf_kids_lt nm a kids) hsz
            exact Hcl nm _ _ _
              ((ih (sizeOf kids) hk).2 nm kids _ tr (Nat.le_refl _) hI)
          · exact hI
    · intro p ks pr tr hsz hI
      match ks, hsz with
      | [], _ =>
        rw [procKids_nil_eq]
        exact hI
      | .text s :: rest, hsz =>
        rw [procKids_text_eq]
        have hr : sizeOf rest < N :=
          Nat.lt_of_lt_of_le (sizeOf_rest_lt _ rest) hsz
        exact (ih (sizeOf rest) hr).2 p rest pr tr (Nat.le_refl _) hI
      | .elem nm a cs :: rest, hsz =>
        rw [procKids_elem_eq]
        have hsz1 : sizeOf (Node.elem nm a cs) < N :=
          Nat.lt_of_lt_of_le (sizeOf_head_lt _ rest) hsz
        have hsz2 : sizeOf rest < N :=
          Nat.lt_of_lt_of_le (sizeOf_rest_lt _ rest) hsz
        have h1 := (ih _ hsz1).1 (some p) (Node.elem nm a cs) pr tr (Nat.le_refl _) hI
        exact (ih _ hsz2).2 p rest _ _ (Nat.le_refl _) h1

/-- Tracker invariant: no two records share the identity key. -/
def keysDistinct (l : List CInfo) : Prop :=
  l.Pairwise (fun a b => sameKeyB a b = false)

theorem trackContainer_keysDistinct (nm : String) (el : Node) (txt : List Char)
    (tr : Option (List CInfo))
    (h : ∀ l, tr = some l → keysDistinct l) :
    ∀ l, trackContainer nm el txt tr = some l → keysDistinct l := by
  intro l hl
  match tr, h with
  | none, _ => cases hl
  | some lst, h =>
    have hd : keysDistinct lst := h lst rfl
    rw [trackContainer] at hl
    by_cases hblank : (pyStrip txt).isEmpty
    · rw [if_pos hblank] at hl
      injection hl with hl'
      exact hl' ▸ hd
    · rw [if_neg hblank] at hl
      simp only at hl
      by_cases hany : lst.any (fun c => sameKeyB c (mkCInfo nm el txt)) = true
      · rw [if_pos hany] at hl
        injection hl with hl'
        exact hl' ▸ hd
      · rw [if_neg hany] at hl
        injection hl with hl'
        subst hl'
        rw [keysDistinct, List.pairwise_append]
        refine ⟨hd, List.pairwise_singleton _ _, ?_⟩
        intro a ha b hb
        rw [List.mem_singleton] at hb
        subst hb
        by_contra hcon
        rw [Bool.not_eq_false] at hcon
        exact hany (List.any_eq_true.2 ⟨a, ha, hcon⟩)

/-- C4 (amended): on the normal container-tracking path, the returned
descriptors are pairwise distinct by identity key. -/
theorem C4_normal_keys_distinct (dom : Node) (l : List CInfo)
    (h : (extractContent dom true false).2 = Tracked.normal l) :
    l.Pairwise (fun a b => sameKeyB a b = false) := by
  have hw := (walker_pres (fun tr => ∀ l, tr = some l → keysDistinct l)
    (fun nm el txt tr hI => trackContainer_keysDistinct nm el txt tr hI)
    (sizeOf (normalRoot (removeTags noiseNames dom)))).1
  have hI0 : ∀ l, (some ([] : List CInfo)) = some l → keysDistinct l := by
    intro l hl
    cases hl
    exact List.Pairwise.nil
  have hinv := hw none (normalRoot (removeTags noiseNames dom)) [] (some [])
    (Nat.le_refl _) hI0
  simp only [extractContent, if_true, if_false, Bool.false_eq_true] at h
  split at h
  · rename_i heq
    cases h
    exact hinv _ heq
  · cases h

/-- Concrete page for the walker witness: a `.content` div holding a
paragraph and an inner div. -/
def normDom : Node :=
  Node.elem "html" []
    [Node.elem "body" []
      [Node.elem "div" [("class", str "content")]
        [Node.elem "p" [] [Node.text (str "hi")],
         Node.elem "div" [("class", str "inner")]
           [Node.elem "p" [] [Node.text (str "yo")]]]]]

theorem C4_normal_keys_distinct_witness :
    ([⟨"div", none, some (str "inner"), 4, str "yo"⟩,
      ⟨"div", none, some (str "content"), 8, str "hi\n\nyo"⟩] :
        List CInfo).Pairwise (fun a b => sameKeyB a b = false) :=
  C4_normal_keys_distinct normDom _ (by decide)

/-- Concrete page with two same-key Chinese containers. -/
def cjkDupDom : Node :=
  Node.elem "html" []
    [Node.elem "body" []
      [Node.elem "div" [("class", str "x")] [Node.text (List.replicate 51 '中')],
       Node.elem "div" [("class", str "x")] [Node.text (List.replicate 50 '中')]]]

/-- A div of class `x` holding `n` ideographs. -/
def divX (n : Nat) : Node :=
  Node.elem "div" [("class", str "x")] [Node.text (List.replicate n '中')]

theorem chinesePct_ideo (n : Nat)
    (h1 : ¬ (List.replicate n '中').isEmpty = true)
    (h3 : (List.replicate n '中').filter (fun c => !isPySpace c)
      = List.replicate n '中')
    (h4 : (List.replicate n '中').filter isChineseChar = List.replicate n '中')
    (h5 : 0 < n) :
    chinesePct (List.replicate n '中') = 1 := by
  rw [chinesePct, if_neg h1]
  simp only
  rw [if_neg (by rw [h3]; exact h1), h3, h4, List.length_replicate,
    div_self (by positivity)]

/-- C4 counterexample: in CJK mode the tracked result can hold two
`ContainerDescriptor`s with one and the same `(type, id, classes)` key —
this path never de-duplicates by key. -/
theorem C4_cjk_duplicate_keys :
    (extractContent cjkDupDom true true).2
      = Tracked.cjk
        [⟨"div", none, some (str "x"), 51, List.replicate 51 '中', true, 100⟩,
         ⟨"div", none, some (str "x"), 50, List.replicate 50 '中', true, 100⟩] := by
  have hp51 : chinesePct (List.replicate 51 '中') = 1 :=
    chinesePct_ideo 51 (by decide) (by decide) (by decide) (by omega)
  have hp50 : chinesePct (List.replicate 50 '中') = 1 :=
    chinesePct_ideo 50 (by decide) (by decide) (by decide) (by omega)
  have h12 : (1/2 : ℚ) < 1 := by norm_num
  have hT51 : (divX 51).getTextStrip = List.replicate 51 '中' := by decide
  have hT50 : (divX 50).getTextStrip = List.replicate 50 '中' := by decide
  have hfind : findAllOf (cjkBody (removeTags noiseNames cjkDupDom))
      ["div", "section", "article", "main", "p"] = [divX 51, divX 50] := by decide
  have hround : round1 (100 : ℚ) = 100 := by
    have he : ((100 : ℚ)) * 10 = ((1000 : ℕ) : ℚ) := by norm_num
    rw [round1, he, round_natCast]
    norm_num
  have hcands : chineseCandidates (cjkBody (removeTags noiseNames cjkDupDom))
      = [mkCjkInfo (divX 51) (List.replicate 51 '中') 1,
         mkCjkInfo (divX 50) (List.replicate 50 '中') 1] := by
    rw [chineseCandidates, hfind]
    simp +decide only [List.filterMap_cons, List.filterMap_nil, hT51, hT50,
      hp51, hp50, h12, if_true, if_false]
  rw [extractContent]
  simp only [if_pos]
  rw [hcands]
  simp +decide [sortCjk, insSort, insertStable, CjkInfo.toOut, mkCjkInfo,
    divX, cjkPreview, hround]

/-! ## Preview construction (C9) and CJK selection (C6) -/

theorem pyStrip_length_le (l : List Char) : (pyStrip l).length ≤ l.length := by
  obtain ⟨e₁, e₂, he, -, -⟩ := exists_pyStrip_decomp l
  conv_rhs => rw [he]
  simp only [List.length_append]
  omega

theorem normalPreview_length_le (t : List Char) :
    (normalPreview t).length ≤ 103 := by
  rw [normalPreview]
  split
  · rw [List.length_append]
    have h1 := pyStrip_length_le (t.take 100)
    have h2 : (t.take 100).length ≤ 100 := by
      rw [List.length_take]; omega
    have h3 : (str "...").length = 3 := rfl
    omega
  · have h1 := pyStrip_length_le t
    omega

theorem cjkPreview_length_le (t : List Char) : (cjkPreview t).length ≤ 203 := by
  rw [cjkPreview, List.length_append]
  have h2 : (t.take 200).length ≤ 200 := by
    rw [List.length_take]; omega
  have h3 : (str "...").length = 3 := rfl
  split
  · omega
  · simp only [List.length_nil]; omega

/-- Every normal-path tracker entry was built by `mkCInfo` from some text. -/
def builtNormal (c : CInfo) : Prop :=
  ∃ t, c.contentLength = t.length ∧ c.preview = normalPreview t

theorem trackContainer_built (nm : String) (el : Node) (txt : List Char)
    (tr : Option (List CInfo))
    (h : ∀ l, tr = some l → ∀ c ∈ l, builtNormal c) :
    ∀ l, trackContainer nm el txt tr = some l → ∀ c ∈ l, builtNormal c := by
  intro l hl
  match tr, h with
  | none, _ => cases hl
  | some lst, h =>
    have hd : ∀ c ∈ lst, builtNormal c := h lst rfl
    rw [trackContainer] at hl
    by_cases hblank : (pyStrip txt).isEmpty
    · rw [if_pos hblank] at hl
      injection hl with hl'
      exact hl' ▸ hd
    · rw [if_neg hblank] at hl
      simp only at hl
      by_cases hany : lst.any (fun c => sameKeyB c (mkCInfo nm el txt)) = true
      · rw [if_pos hany] at hl
        injection hl with hl'
        exact hl' ▸ hd
      · rw [if_neg hany] at hl
        injection hl with hl'
        subst hl'
        intro c hc
        rcases List.mem_append.1 hc with hc' | hc'
        · exact hd c hc'
        · rw [List.mem_singleton] at hc'
          subst hc'
          exact ⟨txt, rfl, rfl⟩

/-- Destructuring a Chinese-mode candidate: it comes from a scanned element
with at least 50 stripped characters and density above one half. -/
theorem mem_chineseCandidates {body : Node} {c : CjkInfo}
    (h : c ∈ chineseCandidates body) :
    ∃ el ∈ findAllOf body ["div", "section", "article", "main", "p"],
      c = mkCjkInfo el el.getTextStrip (chinesePct el.getTextStrip)
      ∧ 50 ≤ el.getTextStrip.length
      ∧ 1/2 < chinesePct el.getTextStrip := by
  rw [chineseCandidates] at h
  rw [List.mem_filterMap] at h
  obtain ⟨el, hel, heq⟩ := h
  simp only at heq
  refine ⟨el, hel, ?_⟩
  by_cases h1 : (el.getTextStrip.isEmpty || decide (el.getTextStrip.length < 50)) = true
  · rw [if_pos h1] at heq; cases heq
  · rw [if_neg h1] at heq
    by_cases h2 : 1/2 < chinesePct el.getTextStrip
    · rw [if_pos h2] at heq
      injection heq with heq'
      refine ⟨heq'.symm, ?_, h2⟩
      simp only [Bool.or_eq_true, decide_eq_true_eq, not_or] at h1
      omega
    · rw [if_neg h2] at heq; cases heq

theorem cjk_le_total (a b : CjkInfo) :
    (Nat.ble b.contentLength a.contentLength
      || Nat.ble a.contentLength b.contentLength) = true := by
  rcases Nat.le_total b.contentLength a.contentLength with h | h
  · rw [Nat.ble_eq_true_of_le h]; rfl
  · rw [Nat.ble_eq_true_of_le h, Bool.or_true]

theorem cjk_le_trans (a b c : CjkInfo)
    (h1 : Nat.ble b.contentLength a.contentLength = true)
    (h2 : Nat.ble c.contentLength b.contentLength = true) :
    Nat.ble c.contentLength a.contentLength = true := by
  rw [Nat.ble_eq] at *
  omega

theorem mem_sortCjk {l : List CjkInfo} {c : CjkInfo} :
    c ∈ sortCjk l ↔ c ∈ l := by
  rw [sortCjk]
  exact mem_insSort

/-- C9 (amended): every tracked descriptor's preview is built from the
container's emitted text with the 100-character bound (stripped, then
ellipsized) on the normal path and the 200-character bound on the CJK path,
so previews are at most 103 resp. 203 characters long. -/
theorem C9_preview_construction (dom : Node) :
    (∀ l, (extractContent dom true false).2 = Tracked.normal l →
      ∀ c ∈ l, (∃ t, c.contentLength = t.length ∧ c.preview = normalPreview t)
        ∧ c.preview.length ≤ 103) ∧
    (∀ l, (extractContent dom true true).2 = Tracked.cjk l →
      ∀ c ∈ l, (∃ t, c.contentLength = t.length ∧ c.preview = cjkPreview t)
        ∧ c.preview.length ≤ 203) := by
  constructor
  · intro l hl c hc
    have hw := (walker_pres (fun tr => ∀ l, tr = some l → ∀ c ∈ l, builtNormal c)
      (fun nm el txt tr hI => trackContainer_built nm el txt tr hI)
      (sizeOf (normalRoot (removeTags noiseNames dom)))).1
    have hI0 : ∀ l, (some ([] : List CInfo)) = some l → ∀ c ∈ l, builtNormal c := by
      intro l hl' c hc'
      cases hl'
      cases hc'
    have hinv := hw none (normalRoot (removeTags noiseNames dom)) [] (some [])
      (Nat.le_refl _) hI0
    simp only [extractContent, if_true, if_false, Bool.false_eq_true] at hl
    split at hl
    · rename_i heq
      injection hl with hl'
      subst hl'
      obtain ⟨t, h1, h2⟩ := hinv _ heq c hc
      exact ⟨⟨t, h1, h2⟩, h2 ▸ normalPreview_length_le t⟩
    · cases hl
  · intro l hl c hc
    simp only [extractContent, if_true] at hl
    injection hl with hl'
    subst hl'
    rw [List.mem_map] at hc
    obtain ⟨i, hi, rfl⟩ := hc
    obtain ⟨el, -, heq, -, -⟩ := mem_chineseCandidates (mem_sortCjk.1 hi)
    subst heq
    refine ⟨⟨el.getTextStrip, rfl, rfl⟩, ?_⟩
    exact cjkPreview_length_le el.getTextStrip

/-- A page whose tracked container emits 148 characters. -/
def dom150 : Node :=
  Node.elem "html" []
    [Node.elem "body" []
      [Node.elem "div" [("class", str "content")]
        [Node.elem "p" [] [Node.text (List.replicate 146 'a')]]]]

set_option maxRecDepth 40000 in
/-- C9 counterexample: a container whose emitted text has 148 characters
(at most 200) still gets an ellipsized preview on the normal path — the
normal tracking path truncates at 100 characters, not 200. -/
theorem C9_ellipsis_below_200 :
    (extractContent dom150 true false).2
      = Tracked.normal
        [⟨"div", none, some (str "content"), 148,
          List.replicate 100 'a' ++ str "..."⟩]
    ∧ (148 ≤ 200 ∧ (List.replicate 100 'a' ++ str "...").length = 103) := by
  constructor
  · decide
  · constructor
    · omega
    · decide

/-- C6: Chinese-mode selection.  Every kept candidate has stripped length
at least 50 and density above one half; with survivors present the walk
root is a survivor of maximal text length; a sole survivor is always the
root; with no survivors the root falls back to the body element. -/
theorem C6_cjk_selection (dom : Node) :
    (∀ c ∈ chineseCandidates (cjkBody (removeTags noiseNames dom)),
      50 ≤ c.element.getTextStrip.length
        ∧ 1/2 < chinesePct c.element.getTextStrip) ∧
    (chineseCandidates (cjkBody (removeTags noiseNames dom)) ≠ [] →
      ∃ c ∈ chineseCandidates (cjkBody (removeTags noiseNames dom)),
        cjkRoot (cjkBody (removeTags noiseNames dom)) = c.element
        ∧ ∀ d ∈ chineseCandidates (cjkBody (removeTags noiseNames dom)),
            d.contentLength ≤ c.contentLength) ∧
    (∀ c, chineseCandidates (cjkBody (removeTags noiseNames dom)) = [c] →
      cjkRoot (cjkBody (removeTags noiseNames dom)) = c.element) ∧
    (chineseCandidates (cjkBody (removeTags noiseNames dom)) = [] →
      cjkRoot (cjkBody (removeTags noiseNames dom)) = cjkBody (removeTags noiseNames dom)) := by
  refine ⟨?_, ?_, ?_, ?_⟩
  · intro c hc
    obtain ⟨el, -, heq, h50, hpct⟩ := mem_chineseCandidates hc
    subst heq
    exact ⟨h50, hpct⟩
  · intro hne
    rw [cjkRoot]
    cases hs : sortCjk (chineseCandidates (cjkBody (removeTags noiseNames dom))) with
    | nil =>
      exfalso
      apply hne
      have hperm := insSort_perm
        (fun a b : CjkInfo => Nat.ble b.contentLength a.contentLength)
        (chineseCandidates (cjkBody (removeTags noiseNames dom)))
      rw [← sortCjk, hs] at hperm
      exact hperm.symm.eq_nil
    | cons c rest =>
      refine ⟨c, ?_, rfl, ?_⟩
      · rw [← mem_sortCjk, hs]
        exact List.mem_cons_self c rest
      · intro d hd
        have hsorted := insSort_pairwise cjk_le_trans cjk_le_total
          (chineseCandidates (cjkBody (removeTags noiseNames dom)))
        rw [← sortCjk, hs] at hsorted
        have hd' : d ∈ c :: rest := by
          rw [← hs, mem_sortCjk]
          exact hd
        rcases List.mem_cons.1 hd' with rfl | hd''
        · exact Nat.le_refl _
        · have := (List.pairwise_cons.1 hsorted).1 d hd''
          rw [Nat.ble_eq] at this
          exact this
  · intro c hc
    rw [cjkRoot, hc]
    have : sortCjk [c] = [c] := rfl
    rw [this]
  · intro hc
    rw [cjkRoot, hc]
    have : sortCjk [] = [] := rfl
    rw [this]

theorem chinesePct_eval {t : List Char} {a b : ℕ}
    (h1 : t.isEmpty = false)
    (h2 : (t.filter (fun c => !isPySpace c)).isEmpty = false)
    (h3 : ((t.filter (fun c => !isPySpace c)).filter isChineseChar).length = a)
    (h4 : (t.filter (fun c => !isPySpace c)).length = b) :
    chinesePct t = (a : ℚ) / b := by
  rw [chinesePct, if_neg (by simp [h1])]
  simp only
  rw [if_neg (by simp [h2]), h3, h4]

set_option maxRecDepth 40000 in
theorem C9_preview_construction_witness :
    (∃ t, (148 : Nat) = t.length
      ∧ List.replicate 100 'a' ++ str "..." = normalPreview t)
    ∧ (List.replicate 100 'a' ++ str "...").length ≤ 103 :=
  (C9_preview_construction dom150).1
    [⟨"div", none, some (str "content"), 148, List.replicate 100 'a' ++ str "..."⟩]
    (by decide)
    ⟨"div", none, some (str "content"), 148, List.replicate 100 'a' ++ str "..."⟩
    (by decide)

/-- The 500-character, 80%-ideograph text of the C6 witness page. -/
def t500 : List Char := List.replicate 400 '中' ++ List.replicate 100 'a'

/-- C6 witness page: one qualifying container (length 500, density 0.8),
one too-short container and one low-density container. -/
def cjkOneDom : Node :=
  Node.elem "html" []
    [Node.elem "body" []
      [Node.elem "div" [("id", str "main")] [Node.text t500],
       Node.elem "div" [] [Node.text (List.replicate 10 'x')],
       Node.elem "div" [] [Node.text (List.replicate 60 'a')]]]

set_option maxRecDepth 40000 in
theorem C6_cjk_selection_witness :
    cjkRoot (cjkBody (removeTags noiseNames cjkOneDom))
      = Node.elem "div" [("id", str "main")] [Node.text t500] := by
  have hpct : chinesePct t500 = (400 : ℚ) / 500 :=
    chinesePct_eval (by decide) (by decide) (by decide) (by decide)
  have hpct0 : chinesePct (List.replicate 60 'a') = (0 : ℚ) / 60 :=
    chinesePct_eval (by decide) (by decide) (by decide) (by decide)
  have h45 : (1/2 : ℚ) < (400 : ℚ) / 500 := by norm_num
  have hn : ¬ ((1/2 : ℚ) < (0 : ℚ) / 60) := by norm_num
  have hfind : findAllOf (cjkBody (removeTags noiseNames cjkOneDom))
      ["div", "section", "article", "main", "p"]
      = [Node.elem "div" [("id", str "main")] [Node.text t500],
         Node.elem "div" [] [Node.text (List.replicate 10 'x')],
         Node.elem "div" [] [Node.text (List.replicate 60 'a')]] := by decide
  have hT : (Node.elem "div" [("id", str "main")] [Node.text t500]).getTextStrip
      = t500 := by decide
  have hT60 : (Node.elem "div" [] [Node.text (List.replicate 60 'a')]).getTextStrip
      = List.replicate 60 'a' := by decide
  have hcands : chineseCandidates (cjkBody (removeTags noiseNames cjkOneDom))
      = [mkCjkInfo (Node.elem "div" [("id", str "main")] [Node.text t500]) t500
          (chinesePct t500)] := by
    rw [chineseCandidates, hfind]
    simp +decide only [List.filterMap_cons, List.filterMap_nil, hT, hT60,
      hpct, hpct0, h45, hn, if_true, if_false]
  exact (C6_cjk_selection cjkOneDom).2.2.1 _ hcands

/-! ## URL handling (`urllib.parse` model) and clustering -/

/-- Split `l` at the first occurrence of `sep`, dropping the separator. -/
def breakOnSub (sep : List Char) : List Char → Option (List Char × List Char)
  | [] => if sep.isEmpty then some ([], []) else none
  | c :: cs =>
    if sep.isPrefixOf (c :: cs) then some ([], (c :: cs).drop sep.length)
    else (breakOnSub sep cs).map (fun p => (c :: p.1, p.2))

/-- Substring containment (Python `in` on strings). -/
def isInfixB (needle : List Char) : List Char → Bool
  | [] => needle.isEmpty
  | c :: t => needle.isPrefixOf (c :: t) || isInfixB needle t

/-- Parsed URL pieces (model of `urllib.parse.urlparse`, accurate for the
`scheme://host/path[?query][#fragment]` shapes the extractor handles). -/
structure UrlParts where
  scheme : List Char
  netloc : List Char
  path : List Char
deriving DecidableEq, Repr

def urlParse (u : List Char) : UrlParts :=
  let noFrag := u.takeWhile (fun c => c != '#')
  match breakOnSub (str "://") noFrag with
  | some (sch, rest) =>
    let netloc := rest.takeWhile (fun c => c != '/' && c != '?')
    let after := rest.drop netloc.length
    ⟨sch, netloc, after.takeWhile (fun c => c != '?')⟩
  | none => ⟨[], [], noFrag.takeWhile (fun c => c != '?')⟩

/-- The base path up to and including its last slash (`/` when none). -/
def dirOfPath (p : List Char) : List Char :=
  let pre := (p.reverse.dropWhile (fun c => c != '/')).reverse
  if pre.isEmpty then str "/" else pre

/-- Model of `urllib.parse.urljoin`, accurate for absolute `http(s)` base
URLs and the href shapes handled by the extractor (absolute, host-relative,
path-relative; no dot-segment normalization). -/
def urljoin (base href : List Char) : List Char :=
  if href.isEmpty then base
  else if (breakOnSub (str "://") href).isSome then href
  else
    let b := urlParse base
    if (str "//").isPrefixOf href then b.scheme ++ ':' :: href
    else if href.head? == some '/' then b.scheme ++ str "://" ++ b.netloc ++ href
    else b.scheme ++ str "://" ++ b.netloc ++ dirOfPath b.path ++ href

/-- Python `'x'.strip('/')`. -/
def stripSlashes (p : List Char) : List Char :=
  ((p.dropWhile (fun c => c == '/')).reverse.dropWhile (fun c => c == '/')).reverse

/-- Python `str.split(sep)` for a single-character separator. -/
def splitOnCh (sep : Char) : List Char → List (List Char)
  | [] => [[]]
  | c :: cs =>
    if c = sep then [] :: splitOnCh sep cs
    else
      match splitOnCh sep cs with
      | [] => [[c]]
      | l :: ls => (c :: l) :: ls

/-- A candidate chapter link (`{'name': ..., 'url': ...}`). -/
structure Link where
  name : List Char
  url : List Char
deriving DecidableEq, Repr

/-- `_calculate_url_similarity`: same host and same path depth required;
per-segment score 1 for equality, 9/10 for equality after removing digits
(non-empty remainder), 0 otherwise; averaged over the segments. -/
def urlSimilarity (u1 u2 : List Char) : ℚ :=
  let p1 := urlParse u1
  let p2 := urlParse u2
  if p1.netloc ≠ p2.netloc then 0
  else
    let path1 := splitOnCh '/' (stripSlashes p1.path)
    let path2 := splitOnCh '/' (stripSlashes p2.path)
    if path1.length ≠ path2.length then 0
    else if path1.length = 0 then 0
    else
      let matching := (path1.zip path2).foldl
        (fun (m : ℚ) sp =>
          if sp.1 = sp.2 then m + 1
          else
            let s1 := sp.1.filter (fun c => !c.isDigit)
            let s2 := sp.2.filter (fun c => !c.isDigit)
            if s1 = s2 ∧ ¬s1.isEmpty then m + 9/10 else m) 0
      matching / path1.length

/-- One greedy clustering pass: the first unclustered link seeds a cluster
absorbing every later link within the similarity threshold. -/
def clusterStep : List Link → List (List Link)
  | [] => []
  | u :: rest =>
    let inC := rest.filter (fun v => decide (9/10 ≤ urlSimilarity u.url v.url))
    let outC := rest.filter (fun v => !decide (9/10 ≤ urlSimilarity u.url v.url))
    (if (u :: inC).length > 1 then [u :: inC] else []) ++ clusterStep outC
termination_by l => l.length
decreasing_by
  have := (List.filter_sublist (l := rest)
    (p := fun v => !decide (9/10 ≤ urlSimilarity u.url v.url))).length_le
  simp only [List.length_cons]
  omega

/-- `_cluster_similar_urls` at the fixed 0.9 threshold: greedy single-pass
clusters of size at least two, largest first (stable sort). -/
def clusterSimilarUrls (urls : List Link) : List (List Link) :=
  if urls.length < 2 then (if urls.isEmpty then [] else [urls])
  else insSort (fun a b => Nat.ble b.length a.length) (clusterStep urls)

/-- Maximal digit runs of a string (`re.findall(r'\d+', url)`);
`acc` holds the reversed current run. -/
def digitRunsAux : List Char → List Char → List (List Char)
  | [], acc => if acc.isEmpty then [] else [acc.reverse]
  | c :: cs, acc =>
    if c.isDigit then digitRunsAux cs (c :: acc)
    else if acc.isEmpty then digitRunsAux cs []
    else acc.reverse :: digitRunsAux cs []

def digitsToNat (ds : List Char) : Nat :=
  ds.foldl (fun n c => n * 10 + (c.toNat - 48)) 0

/-- `int(numbers[-1])`: the last integer substring of a URL, if any. -/
def lastNum? (u : List Char) : Option Nat :=
  ((digitRunsAux u []).getLast?).map digitsToNat

/-- `_detect_sequential_pattern`'s result record. -/
structure PatternInfo where
  hasSequence : Bool
  minN : Nat
  maxN : Nat
  count : Nat
  coverage : ℚ
  confidence : ℚ
  gaps : Nat
deriving DecidableEq, Repr

/-- `_detect_sequential_pattern`: last-number extraction, coverage of the
numeric range, and the confidence formula
`0.5 * cluster_size_ratio + 0.5 * sequential_score`. -/
def detectSequentialPattern (cluster : List Link) : Option PatternInfo :=
  if cluster.length < 2 then none
  else
    let urlNumbers := cluster.filterMap
      (fun it => (lastNum? it.url).map (fun n => (it, n)))
    if urlNumbers.length < 2 then none
    else
      let sorted := insSort (fun a b => Nat.ble a.2 b.2) urlNumbers
      let numbers := sorted.map Prod.snd
      let minN := numbers.foldr Nat.min (numbers.head?.getD 0)
      let maxN := numbers.foldr Nat.max 0
      let uniqueCount := numbers.dedup.length
      let expected := maxN - minN + 1
      let coverage : ℚ := if 0 < expected then (uniqueCount : ℚ) / expected else 0
      let clusterSizeRatio : ℚ :=
        (cluster.length : ℚ) / (Nat.max cluster.length 1)
      let seqScore : ℚ := if 1/2 ≤ coverage then 1 else coverage * 2
      some ⟨true, minN, maxN, uniqueCount, coverage,
        1/2 * clusterSizeRatio + 1/2 * seqScore, expected - uniqueCount⟩

/-! ## `extract_links`: the staged chapter-link pipeline -/

/-- Noise removal of `extract_links` (no `iframe`/`noscript` here). -/
def linkNoiseNames : List String :=
  ["script", "style", "nav", "header", "footer", "aside"]

def linkSels : List Sel :=
  contentSels ++ [.cls (str "chapter-list"), .cls (str "toc"),
    .cls (str "table-of-contents")]

/-- Main-content scope of `extract_links`. -/
def linksRoot (dom2 : Node) : Node :=
  match selectFirstOf dom2 linkSels with
  | some m => m
  | none =>
    match findTag dom2 "body" with
    | some b => b
    | none => dom2

def isAnchor (n : Node) : Bool := n.nameIs "a" && (n.attr? "href").isSome

/-- `main_content.find_all('a', href=True)`. -/
def allLinks (mainC : Node) : List Node := mainC.descendants.filter isAnchor

def toLower (l : List Char) : List Char := l.map Char.toLower

def blacklist : List (List Char) :=
  [str "home", str "about", str "contact", str "login", str "register",
   str "search", str "privacy", str "terms", str "policy", str "rss",
   str "subscribe", str "follow", str "twitter", str "facebook", str "share",
   str "comment", str "next", str "previous", str "prev", str "download",
   str "print", str "bookmark", str "archive", str "latest", str "recent",
   str "popular", str "tag", str "category"]

/-- Stage-0/1 candidate collection: resolve, keep same-host, de-duplicate by
absolute URL, require visible text, drop blacklisted navigation text.
The second component is the `seen_urls` set in insertion order. -/
def collectCands (base : List Char) (links : List Node) :
    List Link × List (List Char) :=
  links.foldl
    (fun acc link =>
      let href := pyStrip ((link.attr? "href").getD [])
      if href.isEmpty || href.head? == some '#' then acc
      else
        let fullUrl := urljoin base href
        if (urlParse fullUrl).netloc != (urlParse base).netloc then acc
        else if acc.2.contains fullUrl then acc
        else
          let linkText := link.getTextStrip
          if linkText.isEmpty then acc
          else if blacklist.any (fun p => isInfixB p (toLower linkText)) then acc
          else (acc.1 ++ [⟨linkText, fullUrl⟩], acc.2 ++ [fullUrl]))
    ([], [])

def stage0 (dom : Node) (base : List Char) : List Link :=
  (collectCands base (allLinks (linksRoot (removeTags linkNoiseNames dom)))).1

/-- Stage 2: accept the largest URL cluster when its sequential pattern has
confidence above 0.8. -/
def stage2result (cands : List Link) : Option (List Link) :=
  if 2 ≤ cands.length then
    match clusterSimilarUrls cands with
    | [] => none
    | largest :: _ =>
      match detectSequentialPattern largest with
      | some p => if 4/5 < p.confidence then some largest else none
      | none => none
  else none

def boundaryOk (c? : Option Char) : Bool :=
  match c? with
  | none => true
  | some c => !(c.isAlphanum || c == '_')

/-- `re.search(r'\bchapter\b', lower_text)`: word-boundary search, carrying
the previous character. -/
def searchWord (needle : List Char) : Option Char → List Char → Bool
  | prev, hay =>
    (boundaryOk prev && needle.isPrefixOf hay
      && boundaryOk (hay.drop needle.length).head?)
    ||
    match hay with
    | [] => false
    | c :: t => searchWord needle (some c) t

/-- `re.search(r'\bch\.?\s*\d+', lower_text)`. -/
def searchChNum : Option Char → List Char → Bool
  | prev, hay =>
    (boundaryOk prev && (str "ch").isPrefixOf hay &&
      (let rest := hay.drop 2
       let rest1 := if rest.head? == some '.' then rest.drop 1 else rest
       match (rest1.dropWhile isPySpace).head? with
       | some d => d.isDigit
       | none => false))
    ||
    match hay with
    | [] => false
    | c :: t => searchChNum (some c) t

/-- `re.search(r'^\d+[\.\):]', link_text)`. -/
def startsNumPunct (t : List Char) : Bool :=
  let ds := t.takeWhile Char.isDigit
  !ds.isEmpty &&
    match (t.drop ds.length).head? with
    | some c => c == '.' || c == ')' || c == ':'
    | none => false

/-- Stage-3 text heuristic for a chapter-like link name. -/
def chapterLike (l : Link) : Bool :=
  searchWord (str "chapter") none (toLower l.name)
  || searchChNum none (toLower l.name)
  || startsNumPunct l.name
  || (!l.name.isEmpty && l.name.all Char.isDigit)

def stage3 (cands : List Link) : List Link := cands.filter chapterLike

/-- The `ol > li` scan of stage 4: no host check and no text-length check. -/
def olScan (base : List Char) (lis : List Node)
    (start : List Link × List (List Char)) : List Link × List (List Char) :=
  lis.foldl
    (fun acc li =>
      match li.descendants.find? isAnchor with
      | none => acc
      | some link =>
        let href := pyStrip ((link.attr? "href").getD [])
        if !href.isEmpty && !(href.head? == some '#') then
          let full := urljoin base href
          if !acc.2.contains full then
            let t := link.getTextStrip
            if !t.isEmpty then (acc.1 ++ [⟨t, full⟩], acc.2 ++ [full]) else acc
          else acc
        else acc)
    start

/-- A `ul` skipped for looking like a navigation menu. -/
def skipUl (n : Node) : Bool :=
  !n.classTokens.isEmpty &&
    n.classTokens.any (fun c =>
      isInfixB (str "nav") (toLower c) || isInfixB (str "menu") (toLower c))

/-- The `ul > li` scan of stage 4: same-host and text length below 200. -/
def ulScan (base : List Char) (lis : List Node)
    (start : List Link × List (List Char)) : List Link × List (List Char) :=
  lis.foldl
    (fun acc li =>
      match li.descendants.find? isAnchor with
      | none => acc
      | some link =>
        let href := pyStrip ((link.attr? "href").getD [])
        if !href.isEmpty && !(href.head? == some '#') then
          let full := urljoin base href
          if (urlParse full).netloc == (urlParse base).netloc
              && !acc.2.contains full then
            let t := link.getTextStrip
            if !t.isEmpty && t.length < 200 then
              (acc.1 ++ [⟨t, full⟩], acc.2 ++ [full])
            else acc
          else acc
        else acc)
    start

def olLis (mainC : Node) : List Node :=
  (mainC.descendants.filter (fun n => n.nameIs "ol")).flatMap
    (fun ol => ol.descendants.filter (fun n => n.nameIs "li"))

def ulLis (mainC : Node) : List Node :=
  (mainC.descendants.filter (fun n => n.nameIs "ul" && !skipUl n)).flatMap
    (fun ul => ul.descendants.filter (fun n => n.nameIs "li"))

/-- Stage 4, the list-structure fallback: ordered lists first, then (when
still under three links) unordered non-navigation lists. -/
def stage4 (mainC : Node) (base : List Char) : List Link :=
  let r1 := olScan base (olLis mainC) ([], [])
  if r1.1.length < 3 then (ulScan base (ulLis mainC) r1).1 else r1.1

/-- Stage 5, last resort: any stage-0 candidate with text length strictly
between 1 and 150, taken only when nothing was found and candidates exist. -/
def stage5 (cands cur : List Link) : List Link :=
  if cur.length = 0 ∧ 0 < cands.length then
    cur ++ cands.filter (fun l => l.name.length < 150 && 1 < l.name.length)
  else cur

/-- `extract_links(html, base_url)`. -/
def extractLinks (dom : Node) (base : List Char) : List Link :=
  let mainC := linksRoot (removeTags linkNoiseNames dom)
  let cands := (collectCands base (allLinks mainC)).1
  match stage2result cands with
  | some r => r
  | none =>
    let s3 := stage3 cands
    let s4 := if s3.length < 3 then stage4 mainC base else s3
    stage5 cands s4

/-! ## A concrete ten-chapter scenario for the clustering pipeline -/

/-- The candidate link `{'name': 'c<n>', 'url': 'http://h/book/ch-<n>'}`. -/
def bookLink (n : Nat) : Link :=
  ⟨'c' :: natChars n, str "http://h/book/ch-" ++ natChars n⟩

/-- Ten candidates `/book/ch-1` through `/book/ch-10` on one host. -/
def cands10 : List Link :=
  [bookLink 1, bookLink 2, bookLink 3, bookLink 4, bookLink 5,
   bookLink 6, bookLink 7, bookLink 8, bookLink 9, bookLink 10]

theorem sim_of_nineTenths {u v : List Char}
    (h : urlSimilarity u v = ((0 : ℚ) + 1 + 9/10) / ((2 : ℕ) : ℚ)) :
    (9/10 : ℚ) ≤ urlSimilarity u v := by
  rw [h]; norm_num

theorem sim_of_one {u v : List Char}
    (h : urlSimilarity u v = ((0 : ℚ) + 1 + 1) / ((2 : ℕ) : ℚ)) :
    (9/10 : ℚ) ≤ urlSimilarity u v := by
  rw [h]; norm_num

theorem cands10_pairwise_sim :
    List.Pairwise (fun a b => (9/10 : ℚ) ≤ urlSimilarity a.url b.url)
      cands10 := by
  apply List.pairwise_of_forall_mem_list
  intro a ha b hb
  fin_cases ha <;> fin_cases hb <;>
    first
      | exact sim_of_nineTenths rfl
      | exact sim_of_one rfl

theorem clusterStep_nil : clusterStep [] = [] := by
  rw [clusterStep]

/-- When the seed is similar to the entire rest, one cluster results. -/
theorem clusterStep_cons_all {u : Link} {rest : List Link} (hne : rest ≠ [])
    (hall : ∀ v ∈ rest, (9/10 : ℚ) ≤ urlSimilarity u.url v.url) :
    clusterStep (u :: rest) = [u :: rest] := by
  have hp : rest.filter
      (fun v => decide ((9/10 : ℚ) ≤ urlSimilarity u.url v.url)) = rest :=
    List.filter_eq_self.mpr (fun v hv => decide_eq_true (hall v hv))
  have hn : rest.filter
      (fun v => !decide ((9/10 : ℚ) ≤ urlSimilarity u.url v.url)) = [] := by
    rw [List.filter_eq_nil_iff]
    intro v hv
    simp [hall v hv]
  have hlen : (u :: rest).length > 1 := by
    obtain ⟨w, ws, rfl⟩ := List.exists_cons_of_ne_nil hne
    simp
  rw [clusterStep]
  simp only [hp, hn, clusterStep_nil, List.append_nil]
  rw [if_pos hlen]

theorem clusterSimilarUrls_cands10 :
    clusterSimilarUrls cands10 = [cands10] := by
  have hall := (List.pairwise_cons.1 cands10_pairwise_sim).1
  have hstep : clusterStep cands10 = [cands10] :=
    clusterStep_cons_all (by simp) (fun v hv => hall v hv)
  unfold clusterSimilarUrls
  rw [if_neg (by decide), hstep]
  rfl

theorem detectSeq_cands10 :
    detectSequentialPattern cands10 = some ⟨true, 1, 10, 10, 1, 1, 0⟩ := by
  have h0 : detectSequentialPattern cands10
      = some ⟨true, 1, 10, 10, ((10 : ℕ) : ℚ) / ((10 : ℕ) : ℚ),
          1/2 * (((10 : ℕ) : ℚ) / ((10 : ℕ) : ℚ))
            + 1/2 * (if (1/2 : ℚ) ≤ ((10 : ℕ) : ℚ) / ((10 : ℕ) : ℚ) then 1
                else (((10 : ℕ) : ℚ) / ((10 : ℕ) : ℚ)) * 2), 0⟩ := rfl
  rw [h0]
  have hq : ((10 : ℕ) : ℚ) / ((10 : ℕ) : ℚ) = 1 := by norm_num
  simp only [hq]
  rw [if_pos (by norm_num : (1/2 : ℚ) ≤ 1)]
  norm_num [Option.some.injEq, PatternInfo.mk.injEq]

/-- Stage 2 accepts when the clustering returns the candidate list itself
as the single cluster and its pattern confidence clears 4/5. -/
theorem stage2result_of_single_cluster {cands : List Link} {p : PatternInfo}
    (h2 : 2 ≤ cands.length)
    (hclu : clusterSimilarUrls cands = [cands])
    (hdsp : detectSequentialPattern cands = some p)
    (hconf : 4/5 < p.confidence) :
    stage2result cands = some cands := by
  unfold stage2result
  rw [if_pos h2, hclu]
  show (match detectSequentialPattern cands with
    | some q => if 4/5 < q.confidence then some cands else none
    | none => none) = some cands
  rw [hdsp]
  show (if (4/5 : ℚ) < p.confidence then some cands else none) = some cands
  rw [if_pos hconf]

theorem stage2_cands10 : stage2result cands10 = some cands10 :=
  stage2result_of_single_cluster (by decide) clusterSimilarUrls_cands10
    detectSeq_cands10 (by norm_num)

/-- C5: for the ten candidates `/book/ch-1` through `/book/ch-10` on one
host, every pair (the diagonal included) has URL similarity at least 9/10,
they form a single cluster, the detected sequential pattern has coverage 1
and confidence 1, stage 2 accepts exactly these ten candidates, and their
extracted chapter numbers are 1 through 10 in ascending order. -/
theorem C5_ten_chapter_scenario :
    List.Pairwise (fun a b => (9/10 : ℚ) ≤ urlSimilarity a.url b.url) cands10
    ∧ clusterSimilarUrls cands10 = [cands10]
    ∧ detectSequentialPattern cands10 = some ⟨true, 1, 10, 10, 1, 1, 0⟩
    ∧ stage2result cands10 = some cands10
    ∧ cands10.map (fun l => lastNum? l.url)
        = [some 1, some 2, some 3, some 4, some 5,
           some 6, some 7, some 8, some 9, some 10] :=
  ⟨cands10_pairwise_sim, clusterSimilarUrls_cands10, detectSeq_cands10,
   stage2_cands10, by decide⟩

/-! ## Stage-2 acceptance returns the cluster itself, in document order -/

/-- Every cluster produced by the greedy pass is a sublist of its input,
so it lists links in their original (document) order. -/
theorem clusterStep_sublist (n : Nat) :
    ∀ l : List Link, l.length ≤ n → ∀ c ∈ clusterStep l, c.Sublist l := by
  induction n with
  | zero =>
    intro l hl c hc
    have hnil : l = [] := List.length_eq_zero.1 (Nat.le_zero.1 hl)
    subst hnil
    rw [clusterStep_nil] at hc
    cases hc
  | succ n ih =>
    intro l hl c hc
    match l, hl, hc with
    | [], _, hc => rw [clusterStep_nil] at hc; cases hc
    | u :: rest, hl, hc =>
      rw [clusterStep] at hc
      rcases List.mem_append.1 hc with h1 | h2
      · by_cases hcond : (u :: rest.filter
            (fun v => decide ((9/10 : ℚ) ≤ urlSimilarity u.url v.url))).length > 1
        · rw [if_pos hcond] at h1
          rcases List.mem_singleton.1 h1 with rfl
          exact (List.filter_sublist rest).cons₂ u
        · rw [if_neg hcond] at h1
          cases h1
      · have hlen : (rest.filter
            (fun v => !decide ((9/10 : ℚ) ≤ urlSimilarity u.url v.url))).length ≤ n := by
          have := (List.filter_sublist (l := rest)
            (p := fun v => !decide ((9/10 : ℚ) ≤ urlSimilarity u.url v.url))).length_le
          simp only [List.length_cons] at hl
          omega
        exact (ih _ hlen c h2).trans ((List.filter_sublist rest).cons u)

/-- A cluster accepted by stage 2 lists candidate links in document order. -/
theorem stage2result_sublist {cands r : List Link}
    (h : stage2result cands = some r) : r.Sublist cands := by
  unfold stage2result at h
  split at h
  · rename_i hlen
    split at h
    · cases h
    · rename_i largest rest hcl
      split at h
      · split at h
        · injection h with h'
          subst h'
          have hmem : largest ∈ clusterSimilarUrls cands := by
            rw [hcl]; exact List.mem_cons_self _ _
          unfold clusterSimilarUrls at hmem
          rw [if_neg (by omega)] at hmem
          exact clusterStep_sublist cands.length cands le_rfl largest
            (mem_insSort.1 hmem)
        · cases h
      · cases h
  · cases h

/-- When stage 2 accepts, the pipeline stops and returns the cluster. -/
theorem extractLinks_stage2 {dom : Node} {base : List Char} {r : List Link}
    (h : stage2result (stage0 dom base) = some r) :
    extractLinks dom base = r := by
  unfold stage0 at h
  unfold extractLinks
  simp only [h]

/-- The documents of the C1 scenario: two chapter links in the order
`ch-2`, `ch-1`. -/
def c1dom : Node :=
  .elem "html" [] [.elem "body" [] [
    .elem "a" [("href", str "/book/ch-2")] [.text (str "two")],
    .elem "a" [("href", str "/book/ch-1")] [.text (str "one")]]]

def c1base : List Char := str "http://h/toc"

def linkCh2 : Link := ⟨str "two", str "http://h/book/ch-2"⟩

def linkCh1 : Link := ⟨str "one", str "http://h/book/ch-1"⟩

theorem c1_stage0_eval : stage0 c1dom c1base = [linkCh2, linkCh1] := by
  decide

theorem c1_cluster_eval :
    clusterSimilarUrls [linkCh2, linkCh1] = [[linkCh2, linkCh1]] := by
  have hstep : clusterStep [linkCh2, linkCh1] = [[linkCh2, linkCh1]] := by
    apply clusterStep_cons_all (by simp)
    intro v hv
    rcases List.mem_singleton.1 hv with rfl
    exact sim_of_nineTenths rfl
  unfold clusterSimilarUrls
  rw [if_neg (by decide), hstep]
  rfl

theorem c1_dsp_eval :
    detectSequentialPattern [linkCh2, linkCh1]
      = some ⟨true, 1, 2, 2, 1, 1, 0⟩ := by
  have h0 : detectSequentialPattern [linkCh2, linkCh1]
      = some ⟨true, 1, 2, 2, ((2 : ℕ) : ℚ) / ((2 : ℕ) : ℚ),
          1/2 * (((2 : ℕ) : ℚ) / ((2 : ℕ) : ℚ))
            + 1/2 * (if (1/2 : ℚ) ≤ ((2 : ℕ) : ℚ) / ((2 : ℕ) : ℚ) then 1
                else (((2 : ℕ) : ℚ) / ((2 : ℕ) : ℚ)) * 2), 0⟩ := rfl
  rw [h0]
  have hq : ((2 : ℕ) : ℚ) / ((2 : ℕ) : ℚ) = 1 := by norm_num
  simp only [hq]
  rw [if_pos (by norm_num : (1/2 : ℚ) ≤ 1)]
  norm_num [Option.some.injEq, PatternInfo.mk.injEq]

theorem c1_stage2_eval :
    stage2result (stage0 c1dom c1base) = some [linkCh2, linkCh1] := by
  rw [c1_stage0_eval]
  exact stage2result_of_single_cluster (by decide) c1_cluster_eval
    c1_dsp_eval (by norm_num)

/-- C1 counterexample: a page whose two clustered chapter links appear in
the order `ch-2`, `ch-1`.  Stage 2 accepts the cluster, yet `extract_links`
returns the links with last numbers 2 then 1 — document order, not
ascending numeric order. -/
theorem C1_returns_document_order :
    stage2result (stage0 c1dom c1base) = some [linkCh2, linkCh1]
    ∧ (extractLinks c1dom c1base).map (fun l => lastNum? l.url)
        = [some 2, some 1] := by
  refine ⟨c1_stage2_eval, ?_⟩
  rw [extractLinks_stage2 c1_stage2_eval]
  decide

/-- C1 (amended): whenever stage 2 accepts a cluster, `extract_links`
returns exactly that cluster, and the cluster is a sublist of the stage-0
candidate list — the links keep their document order and are not re-sorted
by their last integer. -/
theorem C1_stage2_cluster_document_order (dom : Node) (base : List Char)
    (r : List Link) (h : stage2result (stage0 dom base) = some r) :
    extractLinks dom base = r ∧ r.Sublist (stage0 dom base) :=
  ⟨extractLinks_stage2 h, stage2result_sublist h⟩

theorem C1_stage2_cluster_document_order_witness :
    extractLinks c1dom c1base = [linkCh2, linkCh1]
    ∧ ([linkCh2, linkCh1] : List Link).Sublist (stage0 c1dom c1base) :=
  C1_stage2_cluster_document_order c1dom c1base [linkCh2, linkCh1]
    c1_stage2_eval

/-! ## Stage 4: what the two list scans check -/

/-- Invariant of both stage-4 scans: the seen set lists exactly the
collected links' URLs, without repetition. -/
def scanInv (acc : List Link × List (List Char)) : Prop :=
  acc.2 = acc.1.map Link.url ∧ acc.2.Nodup

theorem foldl_pres {α β : Type} {P : β → Prop} {f : β → α → β}
    (hf : ∀ b a, P b → P (f b a)) :
    ∀ (l : List α) (b : β), P b → P (List.foldl f b l) := by
  intro l
  induction l with
  | nil => exact fun b hb => hb
  | cons x xs ih => exact fun b hb => ih _ (hf b x hb)

theorem scanInv_push {acc : List Link × List (List Char)}
    (h : scanInv acc) {t full : List Char} (hnew : full ∉ acc.2) :
    scanInv (acc.1 ++ [⟨t, full⟩], acc.2 ++ [full]) := by
  refine ⟨by rw [List.map_append, h.1]; rfl, ?_⟩
  rw [List.nodup_append]
  refine ⟨h.2, List.nodup_singleton _, ?_⟩
  intro a ha hb
  rw [List.mem_singleton] at hb
  exact hnew (hb ▸ ha)

theorem contains_false_not_mem {a : List Char} {l : List (List Char)}
    (h : (!l.contains a) = true) : a ∉ l := by
  simpa using h

theorem olScan_inv (base : List Char) (lis : List Node)
    {start : List Link × List (List Char)} (h : scanInv start) :
    scanInv (olScan base lis start) := by
  unfold olScan
  refine foldl_pres ?_ lis start h
  intro acc li hacc
  simp only []
  split
  · exact hacc
  · split
    · split
      · rename_i hseen
        split
        · exact scanInv_push hacc (contains_false_not_mem hseen)
        · exact hacc
      · exact hacc
    · exact hacc

theorem ulScan_inv (base : List Char) (lis : List Node)
    {start : List Link × List (List Char)} (h : scanInv start) :
    scanInv (ulScan base lis start) := by
  unfold ulScan
  refine foldl_pres ?_ lis start h
  intro acc li hacc
  simp only []
  split
  · exact hacc
  · split
    · split
      · rename_i hcond
        split
        · rw [Bool.and_eq_true] at hcond
          exact scanInv_push hacc (contains_false_not_mem hcond.2)
        · exact hacc
      · exact hacc
    · exact hacc

/-- Links added by the `ul` scan carry a same-host URL and text below 200
characters (the `ol` scan checks neither). -/
theorem ulScan_mem {base : List Char} (lis : List Node) :
    ∀ start : List Link × List (List Char), ∀ l ∈ (ulScan base lis start).1,
      l ∈ start.1
      ∨ ((urlParse l.url).netloc = (urlParse base).netloc
          ∧ l.name.length < 200) := by
  induction lis with
  | nil => exact fun start l hl => Or.inl hl
  | cons li rest ih =>
    intro start l hl
    unfold ulScan at hl
    rw [List.foldl_cons] at hl
    rcases ih _ l hl with hin | hp
    · simp only [] at hin
      split at hin
      · exact Or.inl hin
      · split at hin
        · split at hin
          · rename_i hcond
            split at hin
            · rename_i hlen
              rw [List.mem_append] at hin
              rcases hin with hin | hin
              · exact Or.inl hin
              · rw [List.mem_singleton] at hin
                subst hin
                refine Or.inr ⟨?_, ?_⟩
                · rw [Bool.and_eq_true] at hcond
                  exact eq_of_beq hcond.1
                · rw [Bool.and_eq_true, decide_eq_true_eq] at hlen
                  exact hlen.2
            · exact Or.inl hin
          · exact Or.inl hin
        · exact Or.inl hin
    · exact Or.inr hp

/-- The stage-4 result's URLs, all stages of the scan threaded through one
seen set, are pairwise distinct. -/
theorem stage4_map_nodup (mainC : Node) (base : List Char) :
    ((stage4 mainC base).map Link.url).Nodup := by
  have h0 : scanInv ([], []) := ⟨rfl, List.nodup_nil⟩
  have h1 := olScan_inv base (olLis mainC) h0
  unfold stage4
  by_cases hlt : (olScan base (olLis mainC) ([], [])).1.length < 3
  · rw [if_pos hlt]
    have h2 := ulScan_inv base (ulLis mainC) h1
    rw [← h2.1]
    exact h2.2
  · rw [if_neg hlt]
    rw [← h1.1]
    exact h1.2

/-- C8 (amended): the whole stage-4 result is de-duplicated by absolute
URL, and each link the `ul` scan adds has a same-host URL and visible text
shorter than 200 characters; the `ol` scan enforces neither the host nor
the length bound (see the counterexample). -/
theorem C8_stage4_guarantees (mainC : Node) (base : List Char) :
    ((stage4 mainC base).map Link.url).Nodup
    ∧ ∀ lis : List Node, ∀ start : List Link × List (List Char),
        ∀ l ∈ (ulScan base lis start).1,
          l ∈ start.1
          ∨ ((urlParse l.url).netloc = (urlParse base).netloc
              ∧ l.name.length < 200) :=
  ⟨stage4_map_nodup mainC base,
   fun lis start l hl => ulScan_mem lis start l hl⟩

/-- A page whose `ul` holds one well-formed same-host chapter link. -/
def c8uldom : Node :=
  .elem "html" [] [.elem "body" [] [
    .elem "ul" [] [
      .elem "li" [] [.elem "a" [("href", str "/c")] [.text (str "ch")]]]]]

def c8base : List Char := str "http://h/toc"

def c8ulLink : Link := ⟨str "ch", str "http://h/c"⟩

theorem C8_stage4_guarantees_witness :
    c8ulLink ∈ (ulScan c8base (ulLis c8uldom) ([], [])).1
    ∧ (c8ulLink ∈ ([] : List Link)
        ∨ ((urlParse c8ulLink.url).netloc = (urlParse c8base).netloc
            ∧ c8ulLink.name.length < 200)) :=
  ⟨by decide,
   (C8_stage4_guarantees c8uldom c8base).2 (ulLis c8uldom) ([], [])
     c8ulLink (by decide)⟩

def longA : List Char := List.replicate 250 'a'

/-- A page whose only list link points at a foreign host with a 250
character link text; stage 0 rejects it, so stage 4's `ol` scan runs. -/
def c8dom : Node :=
  .elem "html" [] [.elem "body" [] [
    .elem "ol" [] [
      .elem "li" [] [.elem "a" [("href", str "http://evil/x")]
        [.text longA]]]]]

set_option maxRecDepth 40000 in
/-- C8 counterexample: the `ol` scan of stage 4 admits a link whose host
differs from the base URL's host and whose text has 250 characters, and
`extract_links` returns it. -/
theorem C8_ol_scan_unchecked :
    extractLinks c8dom c8base = [⟨longA, str "http://evil/x"⟩]
    ∧ (urlParse (str "http://evil/x")).netloc ≠ (urlParse c8base).netloc
    ∧ ¬ longA.length < 200 := by
  decide

/-! ## `fetch_page`: the retry loop over an abstract HTTP server -/

/-- One attempt's outcome as seen by `fetch_page`'s `try` block: a body,
an HTTP error status raised by `raise_for_status` (with `str(e)` as
message), a timeout, or another transport failure. -/
inductive FetchResp where
  | ok (body : List Char)
  | httpStatus (code : Nat) (msg : List Char)
  | timeout
  | reqErr (msg : List Char)

/-- `f"... (after {max_retries} attempts)"`. -/
def errSuffix (maxRetries : Nat) : List Char :=
  str " (after " ++ natChars maxRetries ++ str " attempts)"

/-- The `except` chain of one attempt: `inl` is an immediate return,
`inr` records `last_error` and continues the loop. -/
def fetchStep (r : FetchResp) :
    Sum (Option (List Char) × Option (List Char)) (List Char) :=
  match r with
  | .ok body => .inl (some body, none)
  | .timeout => .inr (str "Request timed out")
  | .httpStatus code msg =>
    if code = 429 then .inr (str "Rate limited (429)")
    else if 400 ≤ code ∧ code < 500 then
      .inl (none, some (str "Request failed: " ++ msg))
    else .inr (str "Request failed: " ++ msg)
  | .reqErr msg => .inr (str "Request failed: " ++ msg)

/-- The `for attempt in range(max_retries)` loop; the final component
counts the attempts actually made. -/
def fetchGo (server : Nat → FetchResp) (maxRetries attempt remaining : Nat)
    (lastError : Option (List Char)) (made : Nat) :
    (Option (List Char) × Option (List Char)) × Nat :=
  match remaining with
  | 0 => ((none, some ((lastError.getD (str "None")) ++ errSuffix maxRetries)),
      made)
  | r + 1 =>
    match fetchStep (server attempt) with
    | .inl res => (res, made + 1)
    | .inr e => fetchGo server maxRetries (attempt + 1) r (some e) (made + 1)

/-- `fetch_page(url, max_retries)` over an abstract per-attempt server. -/
def fetchPage (server : Nat → FetchResp) (maxRetries : Nat) :
    (Option (List Char) × Option (List Char)) × Nat :=
  fetchGo server maxRetries 0 maxRetries none 0

theorem isInfixB_append_right (p t : List Char) (s : List Char)
    (h : isInfixB p t = true) : isInfixB p (s ++ t) = true := by
  induction s with
  | nil => exact h
  | cons c cs ih =>
    rw [List.cons_append, isInfixB, ih, Bool.or_true]

/-- C2: a server answering 503 on every attempt yields exactly 3 attempts
and an error ending in " (after 3 attempts)" with no result; a 404 yields
exactly 1 attempt and an immediate error; a constant 429 is retried like
a 5xx (3 attempts, then the annotated error). -/
theorem C2_fetch_retry_policy (m : List Char) :
    fetchPage (fun _ => .httpStatus 503 m) 3
      = ((none, some ((str "Request failed: " ++ m) ++ errSuffix 3)), 3)
    ∧ fetchPage (fun _ => .httpStatus 404 m) 3
      = ((none, some (str "Request failed: " ++ m)), 1)
    ∧ fetchPage (fun _ => .httpStatus 429 m) 3
      = ((none, some (str "Rate limited (429)" ++ errSuffix 3)), 3)
    ∧ isInfixB (str "after 3 attempts")
        ((str "Request failed: " ++ m) ++ errSuffix 3) = true
    ∧ errSuffix 3 = str " (after 3 attempts)" :=
  ⟨rfl, rfl, rfl,
   isInfixB_append_right _ _ _ (by decide), by decide⟩

/-! ## `extract_content_from_selected_containers` and `scrape_page` -/

/-- The keys of a container dict that the selected-container re-extraction
reads (`type`, `id`, `classes`). -/
structure CDesc where
  etype : String
  eid : Option (List Char)
  ecls : Option (List Char)
deriving DecidableEq, Repr

def CInfo.desc (c : CInfo) : CDesc := ⟨c.etype, c.eid, c.ecls⟩

def CjkOut.desc (c : CjkOut) : CDesc := ⟨c.etype, c.eid, c.ecls⟩

/-- The `containers` value `scrape_page` passes on (`None` when absent). -/
def Tracked.descs : Tracked → Option (List CDesc)
  | .noTrack => none
  | .normal l => some (l.map CInfo.desc)
  | .cjk l => some (l.map CjkOut.desc)

/-- Python truthiness of an optional string. -/
def optTruthy : Option (List Char) → Option (List Char)
  | some v => if v.isEmpty then none else some v
  | none => none

/-- The `find_all` filter built from a selected container's keys: by id
when one is set, else by the class token list, else by tag name alone. -/
def selectorPred (c : CDesc) : Node → Bool :=
  match optTruthy c.eid with
  | some i => fun n => n.nameIs c.etype && (n.attr? "id" == some i)
  | none =>
    match optTruthy c.ecls with
    | some cl => fun n =>
        n.nameIs c.etype && !n.classTokens.isEmpty
          && (splitWs cl).all (fun tok => n.classTokens.contains tok)
    | none => fun n => n.nameIs c.etype

/-- The `for idx in selected_indices: if idx < len(containers)` loop:
out-of-range indices are skipped silently. -/
def selectedContainers (cs : List CDesc) : List Nat → List CDesc
  | [] => []
  | idx :: rest =>
    if h : idx < cs.length then
      cs.get ⟨idx, h⟩ :: selectedContainers cs rest
    else selectedContainers cs rest

/-- `extract_content_from_selected_containers(html, containers,
selected_indices)`. -/
def selectedExtract (dom : Node) (containers : List CDesc)
    (idxs : List Nat) : List Char :=
  let cleaned := removeTags noiseNames dom
  let sel := selectedContainers containers idxs
  if sel.isEmpty then []
  else
    let parts := sel.flatMap (fun c =>
      (cleaned.descendants.filter (selectorPred c)).filterMap (fun el =>
        let t := (procEl none el [] none).1
        if (pyStrip t).isEmpty then none else some t))
    cleanText (List.intercalate (str "\n\n") parts)

/-- A scrape result: the `content`/`metadata` dict, with the `containers`
key present only when it was attached. -/
structure PageResult (M : Type) where
  content : List Char
  metadata : M
  containers : Option Tracked

/-- `scrape_page`, from the fetch outcome on: `inl` is a fetch error,
`inr` the fetched page's DOM; `meta` abstracts `extract_metadata`. -/
def scrapePage {M : Type} (fetched : Sum (List Char) Node) (track : Bool)
    (selected : Option (List Nat)) (chinese : Bool) (meta : Node → M) :
    Option (PageResult M) × Option (List Char) :=
  match fetched with
  | .inl err => (none, some err)
  | .inr dom =>
    let r := extractContent dom track chinese
    if r.1.isEmpty then (none, some (str "No content found on page"))
    else
      let reExtract : Option (List Char) :=
        match selected, r.2.descs with
        | some idxs, some ds =>
          if track && !ds.isEmpty then some (selectedExtract dom ds idxs)
          else none
        | _, _ => none
      let keyCs : Option Tracked :=
        if track && (r.2.descs).isSome then some r.2 else none
      match reExtract with
      | some c2 =>
        if c2.isEmpty then
          (none, some (str "No content found in selected containers"))
        else (some ⟨c2, meta dom, keyCs⟩, none)
      | none => (some ⟨r.1, meta dom, keyCs⟩, none)

theorem selectedContainers_filter (cs : List CDesc) (idxs : List Nat) :
    selectedContainers cs (idxs.filter (fun i => decide (i < cs.length)))
      = selectedContainers cs idxs := by
  induction idxs with
  | nil => rfl
  | cons i rest ih =>
    by_cases h : i < cs.length
    · rw [List.filter_cons_of_pos (by simpa using h)]
      rw [selectedContainers, selectedContainers, dif_pos h, dif_pos h, ih]
    · rw [List.filter_cons_of_neg (by simpa using h)]
      rw [show selectedContainers cs (i :: rest) = selectedContainers cs rest
        from by rw [selectedContainers, dif_neg h]]
      exact ih

theorem selectedExtract_filter (dom : Node) (cs : List CDesc)
    (idxs : List Nat) :
    selectedExtract dom cs idxs
      = selectedExtract dom cs
          (idxs.filter (fun i => decide (i < cs.length))) := by
  unfold selectedExtract
  rw [selectedContainers_filter]

theorem scrapePage_selected_empty {M : Type} (meta : Node → M) (dom : Node)
    (idxs : List Nat) (chinese : Bool) (ds : List CDesc)
    (hc : (extractContent dom true chinese).1.isEmpty = false)
    (hd : (extractContent dom true chinese).2.descs = some ds)
    (hne : ds.isEmpty = false)
    (hsel : (selectedExtract dom ds idxs).isEmpty = true) :
    scrapePage (Sum.inr dom) true (some idxs) chinese meta
      = (none, some (str "No content found in selected containers")) := by
  unfold scrapePage
  simp only [hc, Bool.false_eq_true, if_false, hd, hne, Bool.not_false,
    Bool.true_and, if_true, hsel]

/-- C10: the selected-container re-extraction ignores every index at or
beyond the tracked container list's length (filtering them away changes
nothing), and when the selected containers yield no non-empty cleaned
text, `scrape_page` returns no result together with the error string
"No content found in selected containers". -/
theorem C10_selected_containers {M : Type} (meta : Node → M) (dom : Node)
    (cs : List CDesc) (idxs : List Nat) (chinese : Bool) :
    selectedExtract dom cs idxs
      = selectedExtract dom cs (idxs.filter (fun i => decide (i < cs.length)))
    ∧ (∀ ds : List CDesc,
        (extractContent dom true chinese).1.isEmpty = false →
        (extractContent dom true chinese).2.descs = some ds →
        ds.isEmpty = false →
        (selectedExtract dom ds idxs).isEmpty = true →
        scrapePage (Sum.inr dom) true (some idxs) chinese meta
          = (none, some (str "No content found in selected containers"))) :=
  ⟨selectedExtract_filter dom cs idxs,
   fun ds hc hd hne hsel =>
     scrapePage_selected_empty meta dom idxs chinese ds hc hd hne hsel⟩

theorem c10_noTri : noTri (str "hi\n\nyo\n\n") :=
  ⟨by decide, by decide, by decide, by decide, by decide, by decide,
   by decide, by decide, trivial⟩

theorem c10_noDbl : noDbl (str "hi\n\nyo\n\n") :=
  ⟨by decide, by decide, by decide, by decide, by decide, by decide,
   by decide, trivial⟩

theorem c10_content : (extractContent normDom true false).1
    = str "hi\n\nyo" := by
  have h1 : (procEl none (normalRoot (removeTags noiseNames normDom)) []
      (some [])).1 = str "hi\n\nyo\n\n" := by decide
  show cleanText (procEl none (normalRoot (removeTags noiseNames normDom)) []
      (some [])).1 = _
  rw [h1, cleanText, noTri_fix c10_noTri, noDbl_fix c10_noDbl]
  decide

/-! ## `extract_links` output: distinct, absolute URLs (claim C7) -/

theorem breakOnSub_isSome_infix {sep l : List Char}
    (h : (breakOnSub sep l).isSome = true) : isInfixB sep l = true := by
  induction l with
  | nil =>
    rw [breakOnSub] at h
    rw [isInfixB]
    by_cases hs : sep.isEmpty
    · exact hs
    · rw [if_neg (by simpa using hs)] at h
      cases h
  | cons c cs ih =>
    rw [breakOnSub] at h
    rw [isInfixB]
    by_cases hp : sep.isPrefixOf (c :: cs) = true
    · rw [hp, Bool.true_or]
    · rw [if_neg (by simpa using hp)] at h
      cases ho : breakOnSub sep cs with
      | none => rw [ho] at h; simp at h
      | some p => rw [ih (by rw [ho]; rfl), Bool.or_true]

theorem isInfixB_of_startsWith {p t : List Char} (h : p.isPrefixOf t = true) :
    isInfixB p t = true := by
  cases t with
  | nil =>
    rw [isInfixB]
    cases p with
    | nil => rfl
    | cons a as => simp [List.isPrefixOf] at h
  | cons c cs => rw [isInfixB, h, Bool.true_or]

theorem prefix_scheme_sep (x : List Char) :
    (str "://").isPrefixOf (str "://" ++ x) = true := by
  rw [List.isPrefixOf_iff_prefix]
  exact List.prefix_append _ _

/-- Joining any href onto an absolute base yields an absolute URL. -/
theorem urljoin_abs {base : List Char}
    (habs : isInfixB (str "://") base = true) (href : List Char) :
    isInfixB (str "://") (urljoin base href) = true := by
  unfold urljoin
  split
  · exact habs
  · split
    · rename_i hsome
      exact breakOnSub_isSome_infix hsome
    · split
      · rename_i hpre
        have hdec : ∃ t, href = '/' :: '/' :: t := by
          rw [List.isPrefixOf_iff_prefix] at hpre
          obtain ⟨t, ht⟩ := hpre
          exact ⟨t, ht.symm⟩
        obtain ⟨t, rfl⟩ := hdec
        apply isInfixB_append_right
        apply isInfixB_of_startsWith
        simp [List.isPrefixOf]
      · split
        · rw [List.append_assoc, List.append_assoc]
          exact isInfixB_append_right _ _ _
            (isInfixB_of_startsWith (prefix_scheme_sep _))
        · rw [List.append_assoc, List.append_assoc, List.append_assoc]
          exact isInfixB_append_right _ _ _
            (isInfixB_of_startsWith (prefix_scheme_sep _))

/-- Invariant of the stage-0 candidate loop: the seen set mirrors the
collected URLs without repetition, and on an absolute base every collected
URL is absolute. -/
def candInv (base : List Char) (acc : List Link × List (List Char)) : Prop :=
  scanInv acc
  ∧ (isInfixB (str "://") base = true →
      ∀ l ∈ acc.1, isInfixB (str "://") l.url = true)

theorem collectCands_inv (base : List Char) (links : List Node) :
    candInv base (collectCands base links) := by
  unfold collectCands
  refine foldl_pres ?_ links ([], [])
    ⟨⟨rfl, List.nodup_nil⟩, fun _ l hl => absurd hl (List.not_mem_nil l)⟩
  intro acc link hacc
  simp only []
  split
  · exact hacc
  · split
    · exact hacc
    · split
      · exact hacc
      · rename_i hseen
        split
        · exact hacc
        · split
          · exact hacc
          · have hnm : urljoin base (pyStrip ((link.attr? "href").getD []))
                ∉ acc.2 := by simpa using hseen
            refine ⟨scanInv_push hacc.1 hnm, fun habs l hl => ?_⟩
            rw [List.mem_append] at hl
            rcases hl with hl | hl
            · exact hacc.2 habs l hl
            · rw [List.mem_singleton] at hl
              subst hl
              exact urljoin_abs habs _

theorem stage0_nodup (dom : Node) (base : List Char) :
    ((stage0 dom base).map Link.url).Nodup := by
  have h := collectCands_inv base
    (allLinks (linksRoot (removeTags linkNoiseNames dom)))
  unfold stage0
  rw [← h.1.1]
  exact h.1.2

theorem stage0_abs (dom : Node) (base : List Char)
    (habs : isInfixB (str "://") base = true) :
    ∀ l ∈ stage0 dom base, isInfixB (str "://") l.url = true := by
  have h := collectCands_inv base
    (allLinks (linksRoot (removeTags linkNoiseNames dom)))
  unfold stage0
  exact h.2 habs

theorem olScan_abs {base : List Char}
    (habs : isInfixB (str "://") base = true) (lis : List Node) :
    ∀ start : List Link × List (List Char), ∀ l ∈ (olScan base lis start).1,
      l ∈ start.1 ∨ isInfixB (str "://") l.url = true := by
  induction lis with
  | nil => exact fun start l hl => Or.inl hl
  | cons li rest ih =>
    intro start l hl
    unfold olScan at hl
    rw [List.foldl_cons] at hl
    rcases ih _ l hl with hin | hp
    · simp only [] at hin
      split at hin
      · exact Or.inl hin
      · split at hin
        · split at hin
          · split at hin
            · rw [List.mem_append] at hin
              rcases hin with hin | hin
              · exact Or.inl hin
              · rw [List.mem_singleton] at hin
                subst hin
                exact Or.inr (urljoin_abs habs _)
            · exact Or.inl hin
          · exact Or.inl hin
        · exact Or.inl hin
    · exact Or.inr hp

theorem ulScan_abs {base : List Char}
    (habs : isInfixB (str "://") base = true) (lis : List Node) :
    ∀ start : List Link × List (List Char), ∀ l ∈ (ulScan base lis start).1,
      l ∈ start.1 ∨ isInfixB (str "://") l.url = true := by
  induction lis with
  | nil => exact fun start l hl => Or.inl hl
  | cons li rest ih =>
    intro start l hl
    unfold ulScan at hl
    rw [List.foldl_cons] at hl
    rcases ih _ l hl with hin | hp
    · simp only [] at hin
      split at hin
      · exact Or.inl hin
      · split at hin
        · split at hin
          · split at hin
            · rw [List.mem_append] at hin
              rcases hin with hin | hin
              · exact Or.inl hin
              · rw [List.mem_singleton] at hin
                subst hin
                exact Or.inr (urljoin_abs habs _)
            · exact Or.inl hin
          · exact Or.inl hin
        · exact Or.inl hin
    · exact Or.inr hp

theorem stage4_abs (mainC : Node) (base : List Char)
    (habs : isInfixB (str "://") base = true) :
    ∀ l ∈ stage4 mainC base, isInfixB (str "://") l.url = true := by
  unfold stage4
  by_cases hlt : (olScan base (olLis mainC) ([], [])).1.length < 3
  · rw [if_pos hlt]
    intro l hl
    rcases ulScan_abs habs (ulLis mainC) _ l hl with hin | habs'
    · rcases olScan_abs habs (olLis mainC) ([], []) l hin with hin0 | habs'
      · exact absurd hin0 (List.not_mem_nil l)
      · exact habs'
    · exact habs'
  · rw [if_neg hlt]
    intro l hl
    rcases olScan_abs habs (olLis mainC) ([], []) l hl with hin0 | habs'
    · exact absurd hin0 (List.not_mem_nil l)
    · exact habs'

/-- When stage 2 declines, the pipeline finishes with stages 3–5. -/
theorem extractLinks_stage_rest {dom : Node} {base : List Char}
    (h : stage2result (stage0 dom base) = none) :
    extractLinks dom base
      = stage5 (stage0 dom base)
          (if (stage3 (stage0 dom base)).length < 3
           then stage4 (linksRoot (removeTags linkNoiseNames dom)) base
           else stage3 (stage0 dom base)) := by
  unfold stage0 at h
  unfold extractLinks
  simp only [h]
  rfl

/-- Whatever stage produces the result, it is a sub-selection of the
candidates or the stage-4 scan output. -/
theorem extractLinks_cases (dom : Node) (base : List Char) :
    (extractLinks dom base).Sublist (stage0 dom base)
    ∨ extractLinks dom base
        = stage4 (linksRoot (removeTags linkNoiseNames dom)) base := by
  cases hs2 : stage2result (stage0 dom base) with
  | some r =>
    rw [extractLinks_stage2 hs2]
    exact Or.inl (stage2result_sublist hs2)
  | none =>
    rw [extractLinks_stage_rest hs2]
    by_cases h3 : (stage3 (stage0 dom base)).length < 3
    · rw [if_pos h3]
      unfold stage5
      split
      · rename_i hz
        rw [List.length_eq_zero.1 hz.1, List.nil_append]
        exact Or.inl (List.filter_sublist _)
      · exact Or.inr rfl
    · rw [if_neg h3]
      unfold stage5
      split
      · rename_i hz
        rw [List.length_eq_zero.1 hz.1, List.nil_append]
        exact Or.inl (List.filter_sublist _)
      · exact Or.inl (List.filter_sublist _)

/-- C7: the returned chapter links carry pairwise-distinct URLs, and when
the base URL is absolute every returned URL is absolute, whichever stage
produced the result. -/
theorem C7_links_distinct_absolute (dom : Node) (base : List Char) :
    ((extractLinks dom base).map Link.url).Nodup
    ∧ (isInfixB (str "://") base = true →
        ∀ l ∈ extractLinks dom base, isInfixB (str "://") l.url = true) := by
  rcases extractLinks_cases dom base with hsub | h4
  · constructor
    · exact (stage0_nodup dom base).sublist (hsub.map Link.url)
    · exact fun habs l hl => stage0_abs dom base habs l (hsub.subset hl)
  · rw [h4]
    exact ⟨stage4_map_nodup _ base, fun habs => stage4_abs _ base habs⟩

set_option maxRecDepth 40000 in
theorem C7_links_distinct_absolute_witness :
    ((extractLinks c8dom c8base).map Link.url).Nodup
    ∧ isInfixB (str "://") (str "http://evil/x") = true :=
  ⟨(C7_links_distinct_absolute c8dom c8base).1,
   (C7_links_distinct_absolute c8dom c8base).2 (by decide)
     ⟨longA, str "http://evil/x"⟩ (by decide)⟩

theorem C10_selected_containers_witness :
    (selectedExtract normDom
        [⟨"div", none, some (str "inner")⟩, ⟨"div", none, some (str "content")⟩]
        [5]
      = selectedExtract normDom
          [⟨"div", none, some (str "inner")⟩, ⟨"div", none, some (str "content")⟩]
          ([5].filter (fun i => decide (i <
            ([⟨"div", none, some (str "inner")⟩,
              ⟨"div", none, some (str "content")⟩] : List CDesc).length))))
    ∧ scrapePage (Sum.inr normDom) true (some [5]) false (fun _ => ())
        = (none, some (str "No content found in selected containers")) :=
  ⟨(C10_selected_containers (fun _ => ()) normDom
      [⟨"div", none, some (str "inner")⟩, ⟨"div", none, some (str "content")⟩]
      [5] false).1,
   (C10_selected_containers (fun _ => ()) normDom
      [⟨"div", none, some (str "inner")⟩, ⟨"div", none, some (str "content")⟩]
      [5] false).2
     [⟨"div", none, some (str "inner")⟩, ⟨"div", none, some (str "content")⟩]
     (by rw [c10_content]; decide) (by decide) (by decide) (by decide)⟩

end Scrape
